import Mathlib

/-!
Verification development for the AsciiDoc reflow core (src/core.js).

Strings are modelled as lists of characters.  Each JavaScript regular
expression of the source is hand-compiled into a decidable Lean function
with the exact backtracking semantics of the original pattern.  The
hard-split loop of wrapText does not terminate in JavaScript when the
requested width is not positive, so that loop is modelled with a fuel
equal to the length of the token, which is provably sufficient exactly
when the loop terminates; the whole pipeline is therefore Option-valued,
with none corresponding to divergence of the JavaScript code.
-/

namespace AdocReflow

abbrev Str := List Char

def str (s : String) : Str := s.data

/-- JavaScript whitespace class backslash-s. -/
def isWS (c : Char) : Bool :=
  let v := c.toNat
  v == 9 || v == 10 || v == 11 || v == 12 || v == 13 || v == 32 ||
  v == 0xa0 || v == 0x1680 || (0x2000 ≤ v && v ≤ 0x200a) ||
  v == 0x2028 || v == 0x2029 || v == 0x202f || v == 0x205f ||
  v == 0x3000 || v == 0xfeff

/-- Characters matched by the dot of a JavaScript regex (no s flag). -/
def notNL (c : Char) : Bool :=
  let v := c.toNat
  !(v == 10 || v == 13 || v == 0x2028 || v == 0x2029)

def isSpTab (c : Char) : Bool := c == ' ' || c == '\t'

def isDigitC (c : Char) : Bool := 48 ≤ c.toNat && c.toNat ≤ 57

def isLowerC (c : Char) : Bool := 97 ≤ c.toNat && c.toNat ≤ 122

def isAlphaC (c : Char) : Bool :=
  (97 ≤ c.toNat && c.toNat ≤ 122) || (65 ≤ c.toNat && c.toNat ≤ 90)

/-- Character class of backslash-w plus the plus and minus signs. -/
def isWordPM (c : Char) : Bool :=
  isAlphaC c || isDigitC c || c == '_' || c == '+' || c == '-'

def isFenceC (c : Char) : Bool :=
  c == '.' || c == '_' || c == '=' || c == '*' || c == '+' || c == '-'

/-- JavaScript String.prototype.trim. -/
def jsTrim (s : Str) : Str :=
  ((s.dropWhile isWS).reverse.dropWhile isWS).reverse

/-- Matcher for the tail pattern: one optional whitespace char, then dot-star,
then end of string. -/
def dotStarTail (b : Str) : Bool :=
  b.all notNL ||
  (match b with
   | c :: b2 => isWS c && b2.all notNL
   | [] => true)

-- ------------------ The regular expressions of core.js ------------------

/-- FENCE_RE: four or more characters from the fence class, then
whitespace, to the end. -/
def fenceRe (s : Str) : Bool :=
  4 ≤ (s.takeWhile isFenceC).length && (s.dropWhile isFenceC).all isWS

/-- OPEN_BLOCK_RE: two dashes then whitespace to the end. -/
def openBlockRe (s : Str) : Bool :=
  match s with
  | '-' :: '-' :: r => r.all isWS
  | _ => false

/-- TITLE_RE: one or more equals signs followed by a whitespace char. -/
def titleRe (s : Str) : Bool :=
  1 ≤ (s.takeWhile (· == '=')).length &&
  (match s.dropWhile (· == '=') with
   | c :: _ => isWS c
   | [] => false)

/-- ATTR_RE: colon, a char that is neither colon nor whitespace, a run of
non-colons, a colon, then an optional whitespace char and dot-star. -/
def attrRe (s : Str) : Bool :=
  match s with
  | ':' :: c :: rest =>
    !(c == ':') && !(isWS c) &&
    (match rest.dropWhile (· ≠ ':') with
     | ':' :: b => dotStarTail b
     | _ => false)
  | _ => false

/-- BLOCK_TITLE_RE: a dot, a non-whitespace char, then dot-star. -/
def blockTitleRe (s : Str) : Bool :=
  match s with
  | '.' :: c :: rest => !(isWS c) && rest.all notNL
  | _ => false

/-- BLOCK_ATTR_RE: a bracketed nonempty run of non-bracket chars, then
whitespace to the end. -/
def blockAttrRe (s : Str) : Bool :=
  match s with
  | '[' :: rest =>
    1 ≤ (rest.takeWhile (· ≠ ']')).length &&
    (match rest.dropWhile (· ≠ ']') with
     | ']' :: b => b.all isWS
     | _ => false)
  | _ => false

/-- ANCHOR_RE: optional whitespace, double-bracketed nonempty run, then
whitespace to the end. -/
def anchorRe (s : Str) : Bool :=
  match s.dropWhile isWS with
  | '[' :: '[' :: rest =>
    1 ≤ (rest.takeWhile (· ≠ ']')).length &&
    (match rest.dropWhile (· ≠ ']') with
     | ']' :: ']' :: b => b.all isWS
     | _ => false)
  | _ => false

/-- Literal-prefix test on character lists. -/
def pfxOf : Str → Str → Bool
  | [], _ => true
  | _ :: _, [] => false
  | a :: as, b :: bs => a == b && pfxOf as bs

/-- CONDITIONAL_RE: one of the four directives, two colons, dot-star. -/
def condRe (s : Str) : Bool :=
  (pfxOf ['i', 'f', 'd', 'e', 'f', ':', ':'] s && (s.drop 7).all notNL) ||
  (pfxOf ['i', 'f', 'n', 'd', 'e', 'f', ':', ':'] s && (s.drop 8).all notNL) ||
  (pfxOf ['i', 'f', 'e', 'v', 'a', 'l', ':', ':'] s && (s.drop 8).all notNL) ||
  (pfxOf ['e', 'n', 'd', 'i', 'f', ':', ':'] s && (s.drop 7).all notNL)

/-- The part of INCLUDE_RE after the directive: a nonempty non-whitespace
run, a bracketed dot-star, then whitespace to the end.  The existential
over the split reproduces the backtracking of the engine. -/
def includeTail (r : Str) : Bool :=
  (List.range r.length).any fun i =>
    r.getD i ' ' == '[' && 1 ≤ i && (r.take i).all (fun c => !isWS c) &&
    ((List.range r.length).any fun j =>
       decide (i < j) && r.getD j ' ' == ']' &&
       ((r.drop (i+1)).take (j - i - 1)).all notNL &&
       (r.drop (j+1)).all isWS)

/-- INCLUDE_RE. -/
def includeRe (s : Str) : Bool :=
  pfxOf ['i', 'n', 'c', 'l', 'u', 'd', 'e', ':', ':'] s &&
  includeTail (s.drop 9)

/-- Tail of BLOCK_MACRO_RE after the colon part: an optional nonempty
non-whitespace run, a bracket, a run of non-brackets, a closing bracket,
then whitespace to the end. -/
def macroTail (r : Str) : Bool :=
  (List.range (r.length)).any fun i =>
    r.getD i ' ' == '[' && (r.take i).all (fun c => !isWS c) &&
    (match (r.drop (i+1)).dropWhile (· ≠ ']') with
     | ']' :: b => b.all isWS
     | _ => false)

/-- BLOCK_MACRO_RE (case-insensitive flag folded in). -/
def blockMacroRe (s : Str) : Bool :=
  match s with
  | c :: rest =>
    isAlphaC c &&
    (match rest.dropWhile isWordPM with
     | ':' :: r1 =>
       macroTail r1 ||
       (match r1 with
        | ':' :: r2 => macroTail r2
        | _ => false)
     | _ => false)
  | [] => false

/-- TABLE_FENCE_RE: a pipe, three equals signs, whitespace to the end. -/
def tableFenceRe (s : Str) : Bool :=
  match s with
  | '|' :: '=' :: '=' :: '=' :: r => r.all isWS
  | _ => false

/-- COMMENT_BLOCK_FENCE_RE: four slashes then whitespace to the end. -/
def commentFenceRe (s : Str) : Bool :=
  match s with
  | '/' :: '/' :: '/' :: '/' :: r => r.all isWS
  | _ => false

/-- LINE_COMMENT_RE: whitespace, two slashes not followed by two more,
then an optional whitespace char and dot-star. -/
def lineCommentRe (s : Str) : Bool :=
  match s.dropWhile isWS with
  | '/' :: '/' :: '/' :: '/' :: _ => false
  | '/' :: '/' :: r => dotStarTail r
  | _ => false

/-- HR_RE: three or more apostrophe characters then whitespace to the end. -/
def hrRe (s : Str) : Bool :=
  3 ≤ (s.takeWhile (fun c => c.toNat == 39)).length &&
  (s.dropWhile (fun c => c.toNat == 39)).all isWS

/-- PAGE_RE: three less-than signs then whitespace to the end. -/
def pageRe (s : Str) : Bool :=
  match s with
  | '<' :: '<' :: '<' :: r => r.all isWS
  | _ => false

/-- URL_TOKEN_RE: letters, colon, two slashes, a nonempty non-whitespace
run to the end. -/
def urlTokenRe (s : Str) : Bool :=
  1 ≤ (s.takeWhile isAlphaC).length &&
  (match s.dropWhile isAlphaC with
   | ':' :: '/' :: '/' :: r => 1 ≤ r.length && r.all (fun c => !isWS c)
   | _ => false)

/-- LEADING_SPACE_LINE_RE: one space, a non-whitespace char, dot-star. -/
def leadingSpaceRe (s : Str) : Bool :=
  match s with
  | ' ' :: c :: r => !(isWS c) && r.all notNL
  | _ => false

/-- CONTINUATION_LINE_RE: spaces and tabs, a plus, spaces and tabs. -/
def contLineRe (s : Str) : Bool :=
  match s.dropWhile isSpTab with
  | '+' :: b => b.all isSpTab
  | _ => false

/-- INDENTED_CODE_RE: a tab, or four or more spaces, at line start. -/
def indentedCodeRe (s : Str) : Bool :=
  match s with
  | '\t' :: _ => true
  | _ => (s.take 4).length == 4 && (s.take 4).all (· == ' ')

/-- The marker alternation of LIST_RE, with its captures: returns the
marker and the remainder of the line after it. -/
def listMarker (s : Str) : Option (Str × Str) :=
  match s with
  | [] => none
  | c :: _ =>
    if c == '*' || c == '+' || c == '-' then
      let n := (s.takeWhile (· == c)).length
      if 1 ≤ n && n ≤ 6 then some (s.take n, s.drop n) else none
    else if isDigitC c then
      let n := (s.takeWhile isDigitC).length
      match s.drop n with
      | '.' :: r => some (s.take n ++ ['.'], r)
      | _ => none
    else if isLowerC c then
      match s with
      | c2 :: '.' :: r => some ([c2, '.'], r)
      | _ => none
    else if c == '•' then some (['•'], s.drop 1)
    else none

/-- LIST_RE with captures: indent, marker, rest of line. -/
def listRe (s : Str) : Option (Str × Str × Str) :=
  let ind := s.takeWhile isSpTab
  let r := s.dropWhile isSpTab
  match listMarker r with
  | some (m, r2) =>
    let wsRun := r2.takeWhile isWS
    let rest := r2.dropWhile isWS
    if 1 ≤ wsRun.length && rest.all notNL then some (ind, m, rest) else none
  | none => none

/-- DEF_LIST_RE with captures: indent, term, rest of line.  The double
colon can only match at the first colon of the line; the indent is the
longest space-tab run that still leaves a nonempty term. -/
def defListRe (s : Str) : Option (Str × Str × Str) :=
  let p := (s.takeWhile (· ≠ ':')).length
  if p < s.length && s.getD (p+1) ' ' == ':' && 1 ≤ p then
    let indLen := min (s.takeWhile isSpTab).length (p - 1)
    let term := (s.drop indLen).take (p - indLen)
    let r1 := s.drop (p+2)
    let rest := r1.dropWhile isWS
    if rest.all notNL then some (s.take indLen, term, rest) else none
  else none

/-- Helper of ADMON_SINGLE_RE: the body capture after the colon. -/
def admonTail (lab : Str) (r : Str) : Option (Str × Str) :=
  let rest := r.dropWhile isWS
  if rest.all notNL then some (lab, rest) else none

/-- ADMON_SINGLE_RE with captures: label, body (after the whitespace run). -/
def admonRe (s : Str) : Option (Str × Str) :=
  match s with
  | 'N' :: 'O' :: 'T' :: 'E' :: ':' :: r =>
    admonTail ['N', 'O', 'T', 'E'] r
  | 'T' :: 'I' :: 'P' :: ':' :: r =>
    admonTail ['T', 'I', 'P'] r
  | 'I' :: 'M' :: 'P' :: 'O' :: 'R' :: 'T' :: 'A' :: 'N' :: 'T' :: ':' :: r =>
    admonTail ['I', 'M', 'P', 'O', 'R', 'T', 'A', 'N', 'T'] r
  | 'W' :: 'A' :: 'R' :: 'N' :: 'I' :: 'N' :: 'G' :: ':' :: r =>
    admonTail ['W', 'A', 'R', 'N', 'I', 'N', 'G'] r
  | 'C' :: 'A' :: 'U' :: 'T' :: 'I' :: 'O' :: 'N' :: ':' :: r =>
    admonTail ['C', 'A', 'U', 'T', 'I', 'O', 'N'] r
  | _ => none

/-- The checklist pattern of reflowParagraph: bracketed state token then a
nonempty whitespace run; returns the matched text (whitespace included)
and the remainder. -/
def checklistRe (s : Str) : Option (Str × Str) :=
  match s with
  | '[' :: c :: ']' :: r =>
    if c == ' ' || c == 'x' || c == 'X' || c == '-' then
      let w := r.takeWhile isWS
      if 1 ≤ w.length then some ('[' :: c :: ']' :: w, r.dropWhile isWS)
      else none
    else none
  | _ => none

/-- The hard-break pattern: the line ends with a whitespace char then a
plus sign. -/
def hardBreakRe (s : Str) : Bool :=
  match s.reverse with
  | '+' :: c :: _ => isWS c
  | _ => false

-- ------------------ String utilities ------------------

/-- Split on a single character, as JavaScript split with a one-char
separator (keeps empty fragments). -/
def splitChAux (ch : Char) : Str → Str → List Str
  | [], acc => [acc.reverse]
  | c :: rest, acc =>
    if c == ch then acc.reverse :: splitChAux ch rest []
    else splitChAux ch rest (c :: acc)

def splitCh (ch : Char) (s : Str) : List Str := splitChAux ch s []

/-- Split on newline or carriage-return-newline, as the split of the
main loop. -/
def splitLinesAux : Str → Str → List Str
  | [], acc => [acc.reverse]
  | '\r' :: '\n' :: rest, acc => acc.reverse :: splitLinesAux rest []
  | '\n' :: rest, acc => acc.reverse :: splitLinesAux rest []
  | c :: rest, acc => splitLinesAux rest (c :: acc)

def splitLines (s : Str) : List Str := splitLinesAux s []

/-- Join with a separator, as JavaScript Array.prototype.join. -/
def joinSep (sep : Str) : List Str → Str
  | [] => []
  | [x] => x
  | x :: y :: xs => x ++ sep ++ joinSep sep (y :: xs)

/-- The token splitter of wrapText: split on whitespace runs and drop
empty fragments. -/
def wordsAcc : Str → Str → List Str
  | [], acc => if acc.isEmpty then [] else [acc.reverse]
  | c :: rest, acc =>
    if isWS c then
      if acc.isEmpty then wordsAcc rest []
      else acc.reverse :: wordsAcc rest []
    else wordsAcc rest (c :: acc)

def words (s : Str) : List Str := wordsAcc s []

/-- Replace every whitespace run by a single space, as the global
replace of reflowParagraph. -/
def squashAux : Str → Bool → Str
  | [], _ => []
  | c :: rest, prevWS =>
    if isWS c then
      if prevWS then squashAux rest true
      else ' ' :: squashAux rest true
    else c :: squashAux rest false

def squashWS (s : Str) : Str := squashAux s false

/-- JavaScript slice(0, w) on strings, with the negative-index rule. -/
def jsSliceTo (w : Int) (s : Str) : Str :=
  if 0 ≤ w then s.take w.toNat else s.take (s.length - (-w).toNat)

/-- JavaScript slice(w) on strings, with the negative-index rule. -/
def jsSliceFrom (w : Int) (s : Str) : Str :=
  if 0 ≤ w then s.drop w.toNat else s.drop (s.length - (-w).toNat)

-- ------------------ wrapText ------------------

/-- The hard-split while loop of wrapText, with fuel.  Each terminating
iteration of the JavaScript loop removes at least one character when the
width is positive, so fuel equal to the length of the token is spent
only when the JavaScript loop diverges. -/
def chunkLoop : Nat → Int → Str → Option (List Str × Str)
  | 0, w, s => if w < (s.length : Int) then none else some ([], s)
  | n+1, w, s =>
    if w < (s.length : Int) then
      match chunkLoop n w (jsSliceFrom w s) with
      | some (ls, r) => some (jsSliceTo w s :: ls, r)
      | none => none
    else some ([], s)

/-- The hard-split loop at its exact-semantics fuel: returns some
precisely when the JavaScript loop terminates. -/
def hardChunks (w : Int) (s : Str) : Option (List Str × Str) :=
  chunkLoop s.length w s

/-- One iteration of the for-of loop of wrapText: state is the list of
closed lines and the current line. -/
def wrapStep (width : Int) (st : List Str × Str) (w : Str) :
    Option (List Str × Str) :=
  let lines := st.1
  let line := st.2
  let isUrl := urlTokenRe w
  if !isUrl && width ≤ (w.length : Int) then
    let lines1 := if line.isEmpty then lines else lines ++ [line]
    match hardChunks width w with
    | some (chunks, rem) => some (lines1 ++ chunks, rem)
    | none => none
  else
    let cand := if line.isEmpty then w else line ++ ' ' :: w
    if width < (cand.length : Int) then
      if !line.isEmpty then
        let parts := splitCh ' ' line
        let last := parts.getLastD []
        if last.length ≤ 2 && 1 < parts.length then
          some (lines ++ [joinSep [' '] parts.dropLast], last ++ ' ' :: w)
        else some (lines ++ [line], w)
      else some (lines ++ [line], w)
    else some (lines, cand)

def wrapWords (width : Int) : List Str → (List Str × Str) →
    Option (List Str × Str)
  | [], st => some st
  | w :: ws, st =>
    match wrapStep width st w with
    | some st2 => wrapWords width ws st2
    | none => none

/-- wrapText of core.js.  The hanging argument is the prefix added to
every line after the first. -/
def wrapText (text : Str) (width : Int) (hang : Str) : Option Str :=
  match wrapWords width (words text) ([], []) with
  | some (lines, line) =>
    let lines2 := if line.isEmpty then lines else lines ++ [line]
    some (joinSep ['\n']
      (match lines2 with
       | [] => []
       | x :: xs => x :: xs.map (fun l => hang ++ l)))
  | none => none

-- ------------------ reflowParagraph ------------------

def spaces (n : Nat) : Str := List.replicate n ' '

def reflowParagraph (lines : List Str) (width : Int) :
    Option (List Str) :=
  match lines with
  | [] => some []
  | first :: tl =>
    match listRe first with
    | some (ind, m, rest0) =>
      let chkRest :=
        match checklistRe rest0 with
        | some (c, r) => (c, r)
        | none => (([] : Str), rest0)
      let chk := chkRest.1
      let rest1 := chkRest.2
      let head := ind ++ m ++ ' ' :: chk
      let hangingLen := if chk.isEmpty then head.length else max head.length 8
      let body :=
        jsTrim (squashWS (joinSep [' '] (rest1 :: tl.map jsTrim)))
      match wrapText body (max 20 (width - (hangingLen : Int)))
          (spaces hangingLen) with
      | some wr => some [head ++ wr]
      | none => none
    | none =>
      match defListRe first with
      | some (ind, term, rest0) =>
        let head := ind ++ jsTrim term ++ [':', ':', ' ']
        let joined :=
          jsTrim (squashWS (joinSep [' '] (rest0 :: tl.map jsTrim)))
        match wrapText joined (max 20 (width - (head.length : Int)))
            (spaces head.length) with
        | some wr => some [head ++ wr]
        | none => none
      | none =>
        if lines.any hardBreakRe then some lines
        else
          let joined := jsTrim (squashWS (joinSep [' '] (lines.map jsTrim)))
          if joined.isEmpty then some [[]]
          else
            match wrapText joined width [] with
            | some wr => some (splitCh '\n' wr)
            | none => none

-- ------------------ collectListItem ------------------

def markerDepth (m : Str) : Nat :=
  if m.isEmpty then 0
  else if m.all (· == '*') || m.all (· == '+') || m.all (· == '-') then
    m.length
  else if 1 ≤ (m.takeWhile isDigitC).length &&
          m.dropWhile isDigitC == ['.'] then 1
  else
    match m with
    | [c, '.'] => if isLowerC c then 1 else 0
    | ['•'] => 1
    | _ => 0

/-- The forward scan of collectListItem over the lines after the item
head: returns the captured lines, the complex flag, and the lines left
unconsumed. -/
def collectScan (topIndent topDepth : Nat) :
    List Str → List Str × Bool × List Str
  | [] => ([], false, [])
  | line :: rest =>
    let t := jsTrim line
    if line.all isWS then ([], false, line :: rest)
    else if commentFenceRe t then ([], false, line :: rest)
    else if tableFenceRe t then ([], false, line :: rest)
    else if fenceRe t || openBlockRe t then ([], false, line :: rest)
    else if hrRe t || pageRe t then ([], false, line :: rest)
    else if titleRe line || attrRe line || blockTitleRe line ||
            blockAttrRe line || anchorRe line || condRe line ||
            includeRe line || blockMacroRe line then
      ([], false, line :: rest)
    else if contLineRe line then ([line], true, rest)
    else
      match listRe line with
      | some (ind, m, _) =>
        if ind.length ≤ topIndent && markerDepth m ≤ topDepth then
          ([], false, line :: rest)
        else
          let r := collectScan topIndent topDepth rest
          (line :: r.1, true, r.2.2)
      | none =>
        match defListRe line with
        | some (ind, _, _) =>
          if ind.length ≤ topIndent then ([], false, line :: rest)
          else
            let r := collectScan topIndent topDepth rest
            (line :: r.1, true, r.2.2)
        | none =>
          if indentedCodeRe line then
            let r := collectScan topIndent topDepth rest
            (line :: r.1, true, r.2.2)
          else
            let r := collectScan topIndent topDepth rest
            (line :: r.1, r.2.1, r.2.2)

/-- collectListItem of core.js, reformulated on the list of remaining
lines: returns the collected item lines, the complex flag, and the lines
after the item. -/
def collectListItem (first : Str) (rest : List Str) :
    List Str × Bool × List Str :=
  match listRe first with
  | some (ind, m, _) =>
    let r := collectScan ind.length (markerDepth m) rest
    (first :: r.1, r.2.1, r.2.2)
  | none =>
    match defListRe first with
    | some (ind, term, _) =>
      let r := collectScan ind.length (markerDepth term) rest
      (first :: r.1, r.2.1, r.2.2)
    | none => ([first], false, rest)

-- ------------------ Main scan ------------------

structure St where
  fence : Bool
  openB : Bool
  table : Bool
  cb : Bool
  lit : Bool
  para : List Str
  deriving DecidableEq, Repr

def initSt : St := ⟨false, false, false, false, false, []⟩

instance : Inhabited St := ⟨initSt⟩

/-- The flush helper of reflowTextAdoc. -/
def flushP (width : Int) (para : List Str) : Option (List Str) :=
  if para.isEmpty then some [] else reflowParagraph para width

/-- One step of the main loop of reflowTextAdoc, for a current line with
its remaining lines; recur continues the scan on a suffix. -/
def scanGo (width : Int)
    (recur : St → List Str → Option (List Str × St))
    (st : St) (line : Str) (rest : List Str) : Option (List Str × St) :=
  let t := jsTrim line
  if commentFenceRe t then
    (flushP width st.para).bind fun f =>
    (recur { st with para := [], cb := !st.cb } rest).map
      fun p => (f ++ line :: p.1, p.2)
  else if st.cb then
    (recur st rest).map fun p => (line :: p.1, p.2)
  else if lineCommentRe line then
    (flushP width st.para).bind fun f =>
    (recur { st with para := [] } rest).map
      fun p => (f ++ line :: p.1, p.2)
  else if blockTitleRe line || blockAttrRe line || anchorRe line ||
          condRe line || includeRe line || blockMacroRe line ||
          hrRe t || pageRe t then
    (flushP width st.para).bind fun f =>
    (recur { st with para := [] } rest).map
      fun p => (f ++ line :: p.1, p.2)
  else if tableFenceRe t then
    (flushP width st.para).bind fun f =>
    (recur { st with para := [], table := !st.table } rest).map
      fun p => (f ++ line :: p.1, p.2)
  else if st.table then
    (recur st rest).map fun p => (line :: p.1, p.2)
  else if fenceRe t then
    (flushP width st.para).bind fun f =>
    (recur { st with para := [], fence := !st.fence } rest).map
      fun p => (f ++ line :: p.1, p.2)
  else if openBlockRe t then
    (flushP width st.para).bind fun f =>
    (recur { st with para := [], openB := !st.openB } rest).map
      fun p => (f ++ line :: p.1, p.2)
  else if line.all isWS then
    (flushP width st.para).bind fun f =>
    (recur { st with para := [], lit := false } rest).map
      fun p =>
        (f ++ (if rest.isEmpty && line.isEmpty then [] else [[]]) ++ p.1,
         p.2)
  else if st.fence || st.openB || titleRe line || attrRe line then
    (flushP width st.para).bind fun f =>
    (recur { st with para := [] } rest).map
      fun p => (f ++ line :: p.1, p.2)
  else if st.para.isEmpty && !st.lit && leadingSpaceRe line then
    (flushP width st.para).bind fun f =>
    (recur { st with para := [], lit := true } rest).map
      fun p => (f ++ line :: p.1, p.2)
  else if st.lit then
    (recur st rest).map fun p => (line :: p.1, p.2)
  else
    match admonRe line with
    | some (lab, body) =>
      (flushP width st.para).bind fun f =>
      let pfx := lab ++ [':', ' ']
      let wrO : Option Str :=
        if body.isEmpty then some pfx
        else
          (wrapText (jsTrim body) (max 20 (width - (pfx.length : Int)))
            (spaces pfx.length)).map (fun w => pfx ++ w)
      wrO.bind fun wr =>
      (recur { st with para := [] } rest).map
        fun p => (f ++ wr :: p.1, p.2)
    | none =>
      if (listRe line).isSome || (defListRe line).isSome then
        (flushP width st.para).bind fun f =>
        let r := collectListItem line rest
        if r.2.1 then
          (recur { st with para := [] } r.2.2).map
            fun p => (f ++ r.1 ++ p.1, p.2)
        else
          (reflowParagraph r.1 width).bind fun rs =>
          (recur { st with para := [] } r.2.2).map
            fun p => (f ++ rs ++ p.1, p.2)
      else if indentedCodeRe line then
        (flushP width st.para).bind fun f =>
        (recur { st with para := [] } rest).map
          fun p => (f ++ line :: p.1, p.2)
      else
        recur { st with para := st.para ++ [line] } rest

/-- The main loop of reflowTextAdoc, with the final state exposed.  The
fuel counts lines still allowed to be consumed; every step consumes at
least the current line, so fuel equal to the number of lines never runs
out. -/
def scanFull (width : Int) : Nat → St → List Str →
    Option (List Str × St)
  | _, st, [] =>
    (flushP width st.para).map (fun f => (f, { st with para := [] }))
  | 0, _, _ :: _ => none
  | n+1, st, line :: rest => scanGo width (scanFull width n) st line rest

lemma scanFull_nil (width : Int) (n : Nat) (st : St) :
    scanFull width n st [] =
      (flushP width st.para).map (fun f => (f, { st with para := [] })) := by
  cases n <;> rfl

lemma scanFull_succ (width : Int) (n : Nat) (st : St) (line : Str)
    (rest : List Str) :
    scanFull width (n+1) st (line :: rest) =
      scanGo width (scanFull width n) st line rest := rfl

-- Branch equations for scanGo, one per arm of the if-chain.

section ScanGoEqs

variable {width : Int} {recur : St → List Str → Option (List Str × St)}
variable {st : St} {line : Str} {rest : List Str}

lemma scanGo_cbFence (h1 : commentFenceRe (jsTrim line) = true) :
    scanGo width recur st line rest =
      (flushP width st.para).bind fun f =>
      (recur { st with para := [], cb := !st.cb } rest).map
        fun p => (f ++ line :: p.1, p.2) := by
  simp only [scanGo]
  rw [if_pos h1]

lemma scanGo_cbPass (h1 : commentFenceRe (jsTrim line) = false)
    (h2 : st.cb = true) :
    scanGo width recur st line rest =
      (recur st rest).map fun p => (line :: p.1, p.2) := by
  simp only [scanGo]
  rw [if_neg (by simp [h1]), if_pos h2]

lemma scanGo_lineComment (h1 : commentFenceRe (jsTrim line) = false)
    (h2 : st.cb = false) (h3 : lineCommentRe line = true) :
    scanGo width recur st line rest =
      (flushP width st.para).bind fun f =>
      (recur { st with para := [] } rest).map
        fun p => (f ++ line :: p.1, p.2) := by
  simp only [scanGo]
  rw [if_neg (by simp [h1]), if_neg (by simp [h2]), if_pos h3]

lemma scanGo_structural (h1 : commentFenceRe (jsTrim line) = false)
    (h2 : st.cb = false) (h3 : lineCommentRe line = false)
    (h4 : (blockTitleRe line || blockAttrRe line || anchorRe line ||
      condRe line || includeRe line || blockMacroRe line ||
      hrRe (jsTrim line) || pageRe (jsTrim line)) = true) :
    scanGo width recur st line rest =
      (flushP width st.para).bind fun f =>
      (recur { st with para := [] } rest).map
        fun p => (f ++ line :: p.1, p.2) := by
  simp only [scanGo]
  rw [if_neg (by simp [h1]), if_neg (by simp [h2]), if_neg (by simp [h3]),
    if_pos h4]

lemma scanGo_tableFence (h1 : commentFenceRe (jsTrim line) = false)
    (h2 : st.cb = false) (h3 : lineCommentRe line = false)
    (h4 : (blockTitleRe line || blockAttrRe line || anchorRe line ||
      condRe line || includeRe line || blockMacroRe line ||
      hrRe (jsTrim line) || pageRe (jsTrim line)) = false)
    (h5 : tableFenceRe (jsTrim line) = true) :
    scanGo width recur st line rest =
      (flushP width st.para).bind fun f =>
      (recur { st with para := [], table := !st.table } rest).map
        fun p => (f ++ line :: p.1, p.2) := by
  simp only [scanGo]
  rw [if_neg (by simp [h1]), if_neg (by simp [h2]), if_neg (by simp [h3]),
    if_neg (by simp [h4]), if_pos h5]

lemma scanGo_tablePass (h1 : commentFenceRe (jsTrim line) = false)
    (h2 : st.cb = false) (h3 : lineCommentRe line = false)
    (h4 : (blockTitleRe line || blockAttrRe line || anchorRe line ||
      condRe line || includeRe line || blockMacroRe line ||
      hrRe (jsTrim line) || pageRe (jsTrim line)) = false)
    (h5 : tableFenceRe (jsTrim line) = false) (h6 : st.table = true) :
    scanGo width recur st line rest =
      (recur st rest).map fun p => (line :: p.1, p.2) := by
  simp only [scanGo]
  rw [if_neg (by simp [h1]), if_neg (by simp [h2]), if_neg (by simp [h3]),
    if_neg (by simp [h4]), if_neg (by simp [h5]), if_pos h6]

lemma scanGo_fence (h1 : commentFenceRe (jsTrim line) = false)
    (h2 : st.cb = false) (h3 : lineCommentRe line = false)
    (h4 : (blockTitleRe line || blockAttrRe line || anchorRe line ||
      condRe line || includeRe line || blockMacroRe line ||
      hrRe (jsTrim line) || pageRe (jsTrim line)) = false)
    (h5 : tableFenceRe (jsTrim line) = false) (h6 : st.table = false)
    (h7 : fenceRe (jsTrim line) = true) :
    scanGo width recur st line rest =
      (flushP width st.para).bind fun f =>
      (recur { st with para := [], fence := !st.fence } rest).map
        fun p => (f ++ line :: p.1, p.2) := by
  simp only [scanGo]
  rw [if_neg (by simp [h1]), if_neg (by simp [h2]), if_neg (by simp [h3]),
    if_neg (by simp [h4]), if_neg (by simp [h5]), if_neg (by simp [h6]),
    if_pos h7]

lemma scanGo_openB (h1 : commentFenceRe (jsTrim line) = false)
    (h2 : st.cb = false) (h3 : lineCommentRe line = false)
    (h4 : (blockTitleRe line || blockAttrRe line || anchorRe line ||
      condRe line || includeRe line || blockMacroRe line ||
      hrRe (jsTrim line) || pageRe (jsTrim line)) = false)
    (h5 : tableFenceRe (jsTrim line) = false) (h6 : st.table = false)
    (h7 : fenceRe (jsTrim line) = false) (h8 : openBlockRe (jsTrim line) = true) :
    scanGo width recur st line rest =
      (flushP width st.para).bind fun f =>
      (recur { st with para := [], openB := !st.openB } rest).map
        fun p => (f ++ line :: p.1, p.2) := by
  simp only [scanGo]
  rw [if_neg (by simp [h1]), if_neg (by simp [h2]), if_neg (by simp [h3]),
    if_neg (by simp [h4]), if_neg (by simp [h5]), if_neg (by simp [h6]),
    if_neg (by simp [h7]), if_pos h8]

lemma scanGo_blank (h1 : commentFenceRe (jsTrim line) = false)
    (h2 : st.cb = false) (h3 : lineCommentRe line = false)
    (h4 : (blockTitleRe line || blockAttrRe line || anchorRe line ||
      condRe line || includeRe line || blockMacroRe line ||
      hrRe (jsTrim line) || pageRe (jsTrim line)) = false)
    (h5 : tableFenceRe (jsTrim line) = false) (h6 : st.table = false)
    (h7 : fenceRe (jsTrim line) = false)
    (h8 : openBlockRe (jsTrim line) = false)
    (h9 : line.all isWS = true) :
    scanGo width recur st line rest =
      (flushP width st.para).bind fun f =>
      (recur { st with para := [], lit := false } rest).map
        fun p =>
          (f ++ (if rest.isEmpty && line.isEmpty then [] else [[]]) ++ p.1,
           p.2) := by
  simp only [scanGo]
  rw [if_neg (by simp [h1]), if_neg (by simp [h2]), if_neg (by simp [h3]),
    if_neg (by simp [h4]), if_neg (by simp [h5]), if_neg (by simp [h6]),
    if_neg (by simp [h7]), if_neg (by simp [h8]), if_pos h9]

lemma scanGo_verbatimOrHead (h1 : commentFenceRe (jsTrim line) = false)
    (h2 : st.cb = false) (h3 : lineCommentRe line = false)
    (h4 : (blockTitleRe line || blockAttrRe line || anchorRe line ||
      condRe line || includeRe line || blockMacroRe line ||
      hrRe (jsTrim line) || pageRe (jsTrim line)) = false)
    (h5 : tableFenceRe (jsTrim line) = false) (h6 : st.table = false)
    (h7 : fenceRe (jsTrim line) = false)
    (h8 : openBlockRe (jsTrim line) = false)
    (h9 : line.all isWS = false)
    (h10 : (st.fence || st.openB || titleRe line || attrRe line) = true) :
    scanGo width recur st line rest =
      (flushP width st.para).bind fun f =>
      (recur { st with para := [] } rest).map
        fun p => (f ++ line :: p.1, p.2) := by
  simp only [scanGo]
  rw [if_neg (by simp [h1]), if_neg (by simp [h2]), if_neg (by simp [h3]),
    if_neg (by simp [h4]), if_neg (by simp [h5]), if_neg (by simp [h6]),
    if_neg (by simp [h7]), if_neg (by simp [h8]), if_neg (by simp [h9]),
    if_pos h10]

lemma scanGo_leadingSpace (h1 : commentFenceRe (jsTrim line) = false)
    (h2 : st.cb = false) (h3 : lineCommentRe line = false)
    (h4 : (blockTitleRe line || blockAttrRe line || anchorRe line ||
      condRe line || includeRe line || blockMacroRe line ||
      hrRe (jsTrim line) || pageRe (jsTrim line)) = false)
    (h5 : tableFenceRe (jsTrim line) = false) (h6 : st.table = false)
    (h7 : fenceRe (jsTrim line) = false)
    (h8 : openBlockRe (jsTrim line) = false)
    (h9 : line.all isWS = false)
    (h10 : (st.fence || st.openB || titleRe line || attrRe line) = false)
    (h11 : (st.para.isEmpty && !st.lit && leadingSpaceRe line) = true) :
    scanGo width recur st line rest =
      (flushP width st.para).bind fun f =>
      (recur { st with para := [], lit := true } rest).map
        fun p => (f ++ line :: p.1, p.2) := by
  simp only [scanGo]
  rw [if_neg (by simp [h1]), if_neg (by simp [h2]), if_neg (by simp [h3]),
    if_neg (by simp [h4]), if_neg (by simp [h5]), if_neg (by simp [h6]),
    if_neg (by simp [h7]), if_neg (by simp [h8]), if_neg (by simp [h9]),
    if_neg (by simp [h10]), if_pos h11]

lemma scanGo_litPass (h1 : commentFenceRe (jsTrim line) = false)
    (h2 : st.cb = false) (h3 : lineCommentRe line = false)
    (h4 : (blockTitleRe line || blockAttrRe line || anchorRe line ||
      condRe line || includeRe line || blockMacroRe line ||
      hrRe (jsTrim line) || pageRe (jsTrim line)) = false)
    (h5 : tableFenceRe (jsTrim line) = false) (h6 : st.table = false)
    (h7 : fenceRe (jsTrim line) = false)
    (h8 : openBlockRe (jsTrim line) = false)
    (h9 : line.all isWS = false)
    (h10 : (st.fence || st.openB || titleRe line || attrRe line) = false)
    (h11 : (st.para.isEmpty && !st.lit && leadingSpaceRe line) = false)
    (h12 : st.lit = true) :
    scanGo width recur st line rest =
      (recur st rest).map fun p => (line :: p.1, p.2) := by
  simp only [scanGo]
  rw [if_neg (by simp [h1]), if_neg (by simp [h2]), if_neg (by simp [h3]),
    if_neg (by simp [h4]), if_neg (by simp [h5]), if_neg (by simp [h6]),
    if_neg (by simp [h7]), if_neg (by simp [h8]), if_neg (by simp [h9]),
    if_neg (by simp [h10]), if_neg (by simp [h11]), if_pos h12]

lemma scanGo_tail (h1 : commentFenceRe (jsTrim line) = false)
    (h2 : st.cb = false) (h3 : lineCommentRe line = false)
    (h4 : (blockTitleRe line || blockAttrRe line || anchorRe line ||
      condRe line || includeRe line || blockMacroRe line ||
      hrRe (jsTrim line) || pageRe (jsTrim line)) = false)
    (h5 : tableFenceRe (jsTrim line) = false) (h6 : st.table = false)
    (h7 : fenceRe (jsTrim line) = false)
    (h8 : openBlockRe (jsTrim line) = false)
    (h9 : line.all isWS = false)
    (h10 : (st.fence || st.openB || titleRe line || attrRe line) = false)
    (h11 : (st.para.isEmpty && !st.lit && leadingSpaceRe line) = false)
    (h12 : st.lit = false) :
    scanGo width recur st line rest =
      (match admonRe line with
       | some (lab, body) =>
         (flushP width st.para).bind fun f =>
         let pfx := lab ++ [':', ' ']
         let wrO : Option Str :=
           if body.isEmpty then some pfx
           else
             (wrapText (jsTrim body) (max 20 (width - (pfx.length : Int)))
               (spaces pfx.length)).map (fun w => pfx ++ w)
         wrO.bind fun wr =>
         (recur { st with para := [] } rest).map
           fun p => (f ++ wr :: p.1, p.2)
       | none =>
         if (listRe line).isSome || (defListRe line).isSome then
           (flushP width st.para).bind fun f =>
           let r := collectListItem line rest
           if r.2.1 then
             (recur { st with para := [] } r.2.2).map
               fun p => (f ++ r.1 ++ p.1, p.2)
           else
             (reflowParagraph r.1 width).bind fun rs =>
             (recur { st with para := [] } r.2.2).map
               fun p => (f ++ rs ++ p.1, p.2)
         else if indentedCodeRe line then
           (flushP width st.para).bind fun f =>
           (recur { st with para := [] } rest).map
             fun p => (f ++ line :: p.1, p.2)
         else
           recur { st with para := st.para ++ [line] } rest) := by
  simp only [scanGo]
  rw [if_neg (by simp [h1]), if_neg (by simp [h2]), if_neg (by simp [h3]),
    if_neg (by simp [h4]), if_neg (by simp [h5]), if_neg (by simp [h6]),
    if_neg (by simp [h7]), if_neg (by simp [h8]), if_neg (by simp [h9]),
    if_neg (by simp [h10]), if_neg (by simp [h11]), if_neg (by simp [h12])]

end ScanGoEqs

/-- Whether the input string ends with a newline character. -/
def endsNLb (s : Str) : Bool :=
  match s.reverse with
  | '\n' :: _ => true
  | _ => false

/-- reflowTextAdoc of core.js.  Returns none exactly when the
JavaScript code diverges (the hard-split loop at non-positive width). -/
def reflowTextAdoc (input : Str) (width : Int) : Option Str :=
  let src := splitLines input
  (scanFull width src.length initSt src).map fun p =>
    joinSep ['\n'] p.1 ++ (if endsNLb input then ['\n'] else [])

-- ------------------ Token lemmas ------------------

/-- A whitespace-free, nonempty token. -/
def goodTok (w : Str) : Prop := w ≠ [] ∧ ∀ c ∈ w, isWS c = false

lemma wordsAcc_all_ws {s : Str} (h : ∀ c ∈ s, isWS c = true) (acc : Str) :
    wordsAcc s acc = wordsAcc [] acc := by
  induction s generalizing acc with
  | nil => rfl
  | cons c rest ih =>
    have hc : isWS c = true := h c (by simp)
    have hr : ∀ x ∈ rest, isWS x = true := fun x hx => h x (by simp [hx])
    by_cases hacc : acc.isEmpty <;>
      simp [wordsAcc, hc, hacc, ih hr]

lemma wordsAcc_sep {c : Char} (hc : isWS c = true) (b : Str) :
    ∀ (a acc : Str),
      wordsAcc (a ++ c :: b) acc = wordsAcc a acc ++ wordsAcc b [] := by
  intro a
  induction a with
  | nil =>
    intro acc
    by_cases hacc : acc.isEmpty <;> simp [wordsAcc, hc, hacc]
  | cons x a2 ih =>
    intro acc
    by_cases hx : isWS x
    · by_cases hacc : acc.isEmpty <;> simp [wordsAcc, hx, hacc, ih]
    · simp [wordsAcc, hx, ih]

lemma words_sep {c : Char} (hc : isWS c = true) (a b : Str) :
    words (a ++ c :: b) = words a ++ words b :=
  wordsAcc_sep hc b a []

lemma wordsAcc_nonws :
    ∀ (w acc : Str), (∀ x ∈ w, isWS x = false) →
      wordsAcc w acc = wordsAcc [] (w.reverse ++ acc) := by
  intro w
  induction w with
  | nil => intro acc _; simp
  | cons c rest ih =>
    intro acc h
    have hc : isWS c = false := h c (by simp)
    have hr : ∀ x ∈ rest, isWS x = false := fun x hx => h x (by simp [hx])
    simp only [wordsAcc, hc]
    rw [if_neg (by simp), ih (c :: acc) hr]
    show wordsAcc [] (rest.reverse ++ c :: acc) = _
    rw [wordsAcc, if_neg (by simp [List.isEmpty_iff])]
    simp [List.reverse_append]

lemma words_good {w : Str} (h : goodTok w) : words w = [w] := by
  obtain ⟨hne, hws⟩ := h
  unfold words
  rw [wordsAcc_nonws w [] hws]
  have : ¬ w.reverse.isEmpty := by
    simpa [List.isEmpty_iff] using hne
  simp [wordsAcc, this]

lemma wordsAcc_ws_suffix {b : Str} (hb : ∀ c ∈ b, isWS c = true) :
    ∀ (s acc : Str), wordsAcc (s ++ b) acc = wordsAcc s acc := by
  intro s
  induction s with
  | nil =>
    intro acc
    simpa using wordsAcc_all_ws hb acc
  | cons c rest ih =>
    intro acc
    by_cases hc : isWS c
    · by_cases hacc : acc.isEmpty <;> simp [wordsAcc, hc, hacc, ih]
    · simp [wordsAcc, hc, ih]

lemma words_dropWhile_ws (s : Str) :
    words (s.dropWhile isWS) = words s := by
  induction s with
  | nil => rfl
  | cons c rest ih =>
    by_cases hc : isWS c
    · simpa [List.dropWhile_cons, hc, words, wordsAcc] using ih
    · simp [List.dropWhile_cons, hc]

lemma words_rdropWS (l : Str) :
    words ((l.reverse.dropWhile isWS).reverse) = words l := by
  have key : (l.reverse.dropWhile isWS).reverse ++
      (l.reverse.takeWhile isWS).reverse = l := by
    rw [← List.reverse_append, List.takeWhile_append_dropWhile,
      List.reverse_reverse]
  have hws : ∀ c ∈ (l.reverse.takeWhile isWS).reverse, isWS c = true := by
    intro c hc
    rw [List.mem_reverse] at hc
    exact List.mem_takeWhile_imp hc
  conv_rhs => rw [← key]
  exact (wordsAcc_ws_suffix hws _ []).symm

lemma words_jsTrim (s : Str) : words (jsTrim s) = words s := by
  unfold jsTrim
  rw [words_rdropWS, words_dropWhile_ws]

lemma words_joinSep {c : Char} (hc : isWS c = true) (parts : List Str) :
    words (joinSep [c] parts) = (parts.map words).flatten := by
  induction parts with
  | nil => rfl
  | cons x t ih =>
    cases t with
    | nil => simp [joinSep, words]
    | cons y t2 =>
      have : joinSep [c] (x :: y :: t2) = x ++ c :: joinSep [c] (y :: t2) := by
        simp [joinSep]
      rw [this, words_sep hc, ih]
      simp

lemma wordsAcc_squash :
    ∀ (s : Str) (b : Bool) (acc : Str), (b = true → acc = []) →
      wordsAcc (squashAux s b) acc = wordsAcc s acc := by
  intro s
  induction s with
  | nil => intro b acc _; rfl
  | cons c rest ih =>
    intro b acc hba
    by_cases hc : isWS c
    · cases b with
      | true =>
        have hacc : acc = [] := hba rfl
        subst hacc
        have := ih true [] (fun _ => rfl)
        simp only [squashAux, hc, if_true, wordsAcc] at this ⊢
        simpa using this
      | false =>
        have hstep := ih true [] (fun _ => rfl)
        have hsp : isWS ' ' = true := by decide
        by_cases hacc : acc.isEmpty <;>
          simp [squashAux, hc, wordsAcc, hsp, hacc, hstep]
    · have hstep := ih false (c :: acc) (by simp)
      simp [squashAux, hc, wordsAcc, hstep]

lemma words_squash (s : Str) : words (squashWS s) = words s :=
  wordsAcc_squash s false [] (by simp)

lemma wordsAcc_good :
    ∀ (s acc : Str), (∀ c ∈ acc, isWS c = false) →
      ∀ w ∈ wordsAcc s acc, goodTok w := by
  intro s
  induction s with
  | nil =>
    intro acc hacc w hw
    by_cases h : acc.isEmpty
    · simp [wordsAcc, h] at hw
    · simp [wordsAcc, h] at hw
      subst hw
      refine ⟨?_, ?_⟩
      · simpa [List.isEmpty_iff] using h
      · intro c hc
        exact hacc c (by simpa using hc)
  | cons c rest ih =>
    intro acc hacc w hw
    by_cases hc : isWS c
    · by_cases h : acc.isEmpty
      · simp [wordsAcc, hc, h] at hw
        exact ih [] (by simp) w hw
      · simp [wordsAcc, hc, h] at hw
        rcases hw with hw | hw
        · subst hw
          refine ⟨by simpa [List.isEmpty_iff] using h, ?_⟩
          intro x hx
          exact hacc x (by simpa using hx)
        · exact ih [] (by simp) w hw
    · simp only [wordsAcc, if_neg hc] at hw
      refine ih (c :: acc) ?_ w hw
      intro x hx
      rcases List.mem_cons.mp hx with h1 | h1
      · subst h1; simpa using hc
      · exact hacc x h1

lemma words_good_all (s : Str) : ∀ w ∈ words s, goodTok w :=
  wordsAcc_good s [] (by simp)

-- ------------------ splitCh lemmas ------------------

lemma splitChAux_ne_nil (ch : Char) :
    ∀ (s acc : Str), splitChAux ch s acc ≠ [] := by
  intro s
  induction s with
  | nil => intro acc; simp [splitChAux]
  | cons c rest ih =>
    intro acc
    by_cases hc : c == ch <;> simp [splitChAux, hc, ih]

lemma joinSep_cons (sep x : Str) (L : List Str) (h : L ≠ []) :
    joinSep sep (x :: L) = x ++ sep ++ joinSep sep L := by
  cases L with
  | nil => exact absurd rfl h
  | cons y t => rfl

lemma joinSep_splitChAux (ch : Char) :
    ∀ (s acc : Str),
      joinSep [ch] (splitChAux ch s acc) = acc.reverse ++ s := by
  intro s
  induction s with
  | nil => intro acc; simp [splitChAux, joinSep]
  | cons c rest ih =>
    intro acc
    by_cases hc : c == ch
    · have hc2 : c = ch := by simpa using hc
      subst hc2
      rw [splitChAux, if_pos (by simp),
        joinSep_cons [c] acc.reverse (splitChAux c rest [])
          (splitChAux_ne_nil c rest []), ih []]
      simp
    · rw [splitChAux, if_neg (by simpa using hc), ih (c :: acc)]
      simp

lemma joinSep_splitCh (ch : Char) (s : Str) :
    joinSep [ch] (splitCh ch s) = s := by
  simpa using joinSep_splitChAux ch s []

lemma words_splitNL (s : Str) :
    ((splitCh '\n' s).map words).flatten = words s := by
  rw [← words_joinSep (show isWS '\n' = true by decide), joinSep_splitCh]

lemma splitChAux_no_ch (ch : Char) :
    ∀ (x rest acc : Str), (∀ c ∈ x, ¬(c = ch)) →
      splitChAux ch (x ++ rest) acc = splitChAux ch rest (x.reverse ++ acc) := by
  intro x
  induction x with
  | nil => intro rest acc _; simp
  | cons c x2 ih =>
    intro rest acc h
    have hc : ¬(c = ch) := h c (by simp)
    rw [List.cons_append, splitChAux, if_neg (by simpa using hc),
      ih rest (c :: acc) (fun d hd => h d (by simp [hd]))]
    simp

lemma splitCh_joinSep (ch : Char) :
    ∀ (parts : List Str), parts ≠ [] →
      (∀ p ∈ parts, ∀ c ∈ p, ¬(c = ch)) →
      splitCh ch (joinSep [ch] parts) = parts := by
  intro parts
  induction parts with
  | nil => intro h; exact absurd rfl h
  | cons x t ih =>
    intro _ hno
    cases t with
    | nil =>
      show splitChAux ch (joinSep [ch] [x]) [] = [x]
      have : joinSep [ch] [x] = x ++ [] := by simp [joinSep]
      rw [this, splitChAux_no_ch ch x [] [] (hno x (by simp))]
      simp [splitChAux]
    | cons y t2 =>
      rw [joinSep_cons [ch] x (y :: t2) (by simp)]
      show splitChAux ch ((x ++ [ch]) ++ joinSep [ch] (y :: t2)) [] = _
      rw [List.append_assoc, List.singleton_append,
        splitChAux_no_ch ch x _ [] (hno x (by simp)),
        splitChAux, if_pos (by simp)]
      have h5 := ih (by simp) (fun p hp => hno p (by simp [hp]))
      simp only [List.append_nil, List.reverse_reverse]
      show x :: splitCh ch (joinSep [ch] (y :: t2)) = _
      rw [h5]

-- ------------------ lineOf lemmas ------------------

/-- The text of a wrapper line holding the given tokens. -/
def lineOf (tl : List Str) : Str := joinSep [' '] tl

lemma words_lineOf {tl : List Str} (h : ∀ t ∈ tl, goodTok t) :
    words (lineOf tl) = tl := by
  unfold lineOf
  rw [words_joinSep (by decide)]
  induction tl with
  | nil => rfl
  | cons x t ih =>
    have hx := words_good (h x (by simp))
    rw [List.map_cons, List.flatten_cons, hx,
      ih (fun t2 ht2 => h t2 (by simp [ht2]))]
    rfl

lemma lineOf_nil : lineOf [] = [] := rfl

lemma lineOf_eq_nil_iff {tl : List Str} (h : ∀ t ∈ tl, goodTok t) :
    lineOf tl = [] ↔ tl = [] := by
  constructor
  · intro he
    cases tl with
    | nil => rfl
    | cons x t =>
      exfalso
      cases t with
      | nil =>
        exact (h x (by simp)).1 he
      | cons y t2 =>
        rw [lineOf, joinSep_cons [' '] x (y :: t2) (by simp)] at he
        rcases List.append_eq_nil.mp he with ⟨h1, _⟩
        rcases List.append_eq_nil.mp h1 with ⟨_, h3⟩
        simp at h3
  · intro he; subst he; rfl

lemma mem_lineOf {tl : List Str} {c : Char} (hc : c ∈ lineOf tl) :
    c = ' ' ∨ ∃ t ∈ tl, c ∈ t := by
  induction tl with
  | nil => simp [lineOf, joinSep] at hc
  | cons x t ih =>
    cases t with
    | nil =>
      right; exact ⟨x, by simp, by simpa [lineOf, joinSep] using hc⟩
    | cons y t2 =>
      rw [lineOf, joinSep_cons [' '] x (y :: t2) (by simp)] at hc
      rcases List.mem_append.mp hc with h1 | h1
      · rcases List.mem_append.mp h1 with h2 | h2
        · right; exact ⟨x, by simp, h2⟩
        · left; simpa using h2
      · rcases ih h1 with h2 | ⟨t3, ht3, hc3⟩
        · left; exact h2
        · right; exact ⟨t3, by simp [ht3], hc3⟩

lemma lineOf_no_ws_char {tl : List Str} (h : ∀ t ∈ tl, goodTok t)
    {c : Char} (hc : c ∈ lineOf tl) (hws : isWS c = true) : c = ' ' := by
  rcases mem_lineOf hc with h1 | ⟨t, ht, hct⟩
  · exact h1
  · exact absurd hws (by simp [(h t ht).2 c hct])

lemma lineOf_append_singleton {tl : List Str} {w : Str} (h : tl ≠ []) :
    lineOf (tl ++ [w]) = lineOf tl ++ ' ' :: w := by
  induction tl with
  | nil => exact absurd rfl h
  | cons x t ih =>
    cases t with
    | nil => simp [lineOf, joinSep]
    | cons y t2 =>
      show joinSep [' '] (x :: ((y :: t2) ++ [w])) =
        joinSep [' '] (x :: y :: t2) ++ ' ' :: w
      rw [joinSep_cons [' '] x ((y :: t2) ++ [w]) (by simp),
        joinSep_cons [' '] x (y :: t2) (by simp)]
      have h5 := ih (by simp)
      unfold lineOf at h5
      rw [h5]
      simp

lemma lineOf_dropLast_length (tl : List Str) (h : 2 ≤ tl.length) :
    (lineOf tl.dropLast).length ≤ (lineOf tl).length := by
  have hne : tl ≠ [] := by
    intro he; subst he; simp at h
  have hd : tl.dropLast ≠ [] := by
    intro he
    have := congrArg List.length he
    simp [List.length_dropLast] at this
    omega
  have : tl = tl.dropLast ++ [tl.getLast hne] := by
    simp [List.dropLast_append_getLast]
  conv_rhs => rw [this]
  rw [lineOf_append_singleton hd]
  simp

lemma lineOf_no_nl {tl : List Str} (h : ∀ t ∈ tl, goodTok t) :
    '\n' ∉ lineOf tl := by
  intro hmem
  have := lineOf_no_ws_char h hmem (by decide)
  simp at this

-- ------------------ Wrapper lemmas ------------------

lemma urlTokenRe_length {w : Str} (h : urlTokenRe w = true) :
    5 ≤ w.length := by
  unfold urlTokenRe at h
  rw [Bool.and_eq_true] at h
  obtain ⟨h1, h2⟩ := h
  have hlen : (w.takeWhile isAlphaC).length +
      (w.dropWhile isAlphaC).length = w.length := by
    have h9 := congrArg List.length
      (List.takeWhile_append_dropWhile isAlphaC w)
    rw [List.length_append] at h9
    exact h9
  have h1n : 1 ≤ (w.takeWhile isAlphaC).length := by simpa using h1
  split at h2
  · rename_i r heq
    rw [Bool.and_eq_true] at h2
    have hr : 1 ≤ r.length := by simpa using h2.1
    have : (w.dropWhile isAlphaC).length = r.length + 3 := by
      rw [heq]; simp
    omega
  · simp at h2

lemma chunkLoop_spec {width : Int} (hw : 1 ≤ width) :
    ∀ (n : Nat) (s : Str), s.length ≤ n →
      ∃ chunks rem, chunkLoop n width s = some (chunks, rem) ∧
        (∀ c ∈ chunks, (c.length : Int) ≤ width ∧ ∀ x ∈ c, x ∈ s) ∧
        ((rem.length : Int) ≤ width) ∧ (s ≠ [] → rem ≠ []) ∧
        (∀ x ∈ rem, x ∈ s) := by
  intro n
  induction n with
  | zero =>
    intro s hs
    have hnil : s = [] := List.length_eq_zero.mp (Nat.le_zero.mp hs)
    subst hnil
    refine ⟨[], [], ?_, by simp, by simp; omega, by simp, by simp⟩
    unfold chunkLoop
    rw [if_neg (by simp; omega)]
  | succ n ih =>
    intro s hs
    by_cases hc : width < (s.length : Int)
    · have hw0 : (0 : Int) ≤ width := by omega
      have hs2eq : jsSliceFrom width s = s.drop width.toNat := by
        simp [jsSliceFrom, hw0]
      have hlen2 : (jsSliceFrom width s).length = s.length - width.toNat := by
        rw [hs2eq]; simp
      have hwpos : 1 ≤ width.toNat := by omega
      have hslen : width.toNat < s.length := by omega
      have hlen2n : (jsSliceFrom width s).length ≤ n := by omega
      obtain ⟨chunks, rem, heq, hch, hrem, hremne, hremmem⟩ :=
        ih (jsSliceFrom width s) hlen2n
      refine ⟨jsSliceTo width s :: chunks, rem, ?_, ?_, hrem, ?_, ?_⟩
      · unfold chunkLoop
        rw [if_pos hc, heq]
      · intro c hcm
        rcases List.mem_cons.mp hcm with h1 | h1
        · subst h1
          constructor
          · have : (jsSliceTo width s).length ≤ width.toNat := by
              simp [jsSliceTo, hw0]
            omega
          · intro x hx
            rw [show jsSliceTo width s = s.take width.toNat by
              simp [jsSliceTo, hw0]] at hx
            exact List.mem_of_mem_take hx
        · obtain ⟨hb, hm⟩ := hch c h1
          refine ⟨hb, fun x hx => ?_⟩
          have := hm x hx
          rw [hs2eq] at this
          exact List.mem_of_mem_drop this
      · intro _
        apply hremne
        intro he
        have := congrArg List.length he
        rw [hlen2] at this
        simp at this
        omega
      · intro x hx
        have := hremmem x hx
        rw [hs2eq] at this
        exact List.mem_of_mem_drop this
    · refine ⟨[], s, ?_, by simp, by omega, fun h => h, fun x hx => hx⟩
      unfold chunkLoop
      rw [if_neg hc]

lemma hardChunks_spec {width : Int} (hw : 1 ≤ width) (s : Str) :
    ∃ chunks rem, hardChunks width s = some (chunks, rem) ∧
      (∀ c ∈ chunks, (c.length : Int) ≤ width ∧ ∀ x ∈ c, x ∈ s) ∧
      ((rem.length : Int) ≤ width) ∧ (s ≠ [] → rem ≠ []) ∧
      (∀ x ∈ rem, x ∈ s) :=
  chunkLoop_spec hw s.length s le_rfl

lemma isEmpty_false_of_ne {A : Type} {l : List A} (h : l ≠ []) :
    l.isEmpty = false := by
  cases l with
  | nil => exact absurd rfl h
  | cons a t => rfl

lemma splitCh_lineOf {tl : List Str} (hne : tl ≠ [])
    (h : ∀ t ∈ tl, goodTok t) : splitCh ' ' (lineOf tl) = tl := by
  apply splitCh_joinSep ' ' tl hne
  intro p hp c hcp he
  subst he
  exact absurd ((h p hp).2 ' ' hcp) (by decide)

lemma lineOf_pair (a b : Str) : lineOf [a, b] = a ++ ' ' :: b := by
  simp [lineOf, joinSep]

/-- Lines the wrapper may produce while closing them: either the line
contains a URL token or it fits within width plus two columns (the
short-word stickiness rule can exceed the width by two). -/
def lineOK (width : Int) (l : Str) : Prop :=
  (∃ t ∈ words l, urlTokenRe t = true) ∨ (l.length : Int) ≤ width + 2

-- ---------- wrapStep case equations ----------

lemma wrapStep_hard {width : Int} {w : Str}
    (hurl : urlTokenRe w = false) (hlen : width ≤ (w.length : Int))
    {chunks : List Str} {rem : Str}
    (hchk : hardChunks width w = some (chunks, rem))
    (lines : List Str) (line : Str) :
    wrapStep width (lines, line) w =
      some ((if line.isEmpty then lines else lines ++ [line]) ++ chunks,
        rem) := by
  simp [wrapStep, hurl, hlen, hchk]

lemma wrapStep_fit_nil {width : Int} {w : Str}
    (hc : (!urlTokenRe w && decide (width ≤ (w.length : Int))) = false)
    (hfit : ¬ width < (w.length : Int)) (lines : List Str) :
    wrapStep width (lines, []) w = some (lines, w) := by
  simp [wrapStep, hc, hfit]

lemma wrapStep_fit_cons {width : Int} {w line : Str}
    (hc : (!urlTokenRe w && decide (width ≤ (w.length : Int))) = false)
    (hline : line ≠ [])
    (hfit : ¬ width < ((line ++ ' ' :: w).length : Int)) (lines : List Str) :
    wrapStep width (lines, line) w = some (lines, line ++ ' ' :: w) := by
  have hfit2 : ¬ width < (line.length : Int) + ((w.length : Int) + 1) := by
    rw [List.length_append] at hfit
    push_cast at hfit
    simpa using hfit
  simp [wrapStep, hc, isEmpty_false_of_ne hline, hfit2]

lemma wrapStep_break_nil {width : Int} {w : Str}
    (hc : (!urlTokenRe w && decide (width ≤ (w.length : Int))) = false)
    (hfit : width < (w.length : Int)) (lines : List Str) :
    wrapStep width (lines, []) w = some (lines ++ [[]], w) := by
  simp [wrapStep, hc, hfit]

lemma wrapStep_stick {width : Int} {w line : Str}
    (hc : (!urlTokenRe w && decide (width ≤ (w.length : Int))) = false)
    (hline : line ≠ [])
    (hfit : width < ((line ++ ' ' :: w).length : Int))
    (hs1 : ((splitCh ' ' line).getLastD []).length ≤ 2)
    (hs2 : 1 < (splitCh ' ' line).length) (lines : List Str) :
    wrapStep width (lines, line) w =
      some (lines ++ [joinSep [' '] (splitCh ' ' line).dropLast],
        (splitCh ' ' line).getLastD [] ++ ' ' :: w) := by
  have hfit2 : width < (line.length : Int) + ((w.length : Int) + 1) := by
    rw [List.length_append] at hfit
    push_cast at hfit
    simpa using hfit
  have hs1b : ((splitCh ' ' line).getLast?.getD []).length ≤ 2 := by
    simpa [List.getLastD_eq_getLast?] using hs1
  simp [wrapStep, hc, isEmpty_false_of_ne hline, hfit2, hs1b, hs2,
    List.getLastD_eq_getLast?]

lemma wrapStep_push {width : Int} {w line : Str}
    (hc : (!urlTokenRe w && decide (width ≤ (w.length : Int))) = false)
    (hline : line ≠ [])
    (hfit : width < ((line ++ ' ' :: w).length : Int))
    (hs : ¬ (((splitCh ' ' line).getLastD []).length ≤ 2 ∧
      1 < (splitCh ' ' line).length)) (lines : List Str) :
    wrapStep width (lines, line) w = some (lines ++ [line], w) := by
  have hfit2 : width < (line.length : Int) + ((w.length : Int) + 1) := by
    rw [List.length_append] at hfit
    push_cast at hfit
    simpa using hfit
  have hb : ¬ (((splitCh ' ' line).getLast?.getD []).length ≤ 2 ∧
      1 < (splitCh ' ' line).length) := by
    simpa [List.getLastD_eq_getLast?] using hs
  simp [wrapStep, hc, isEmpty_false_of_ne hline, hfit2, hb]

lemma wrapWords_cons_some {width : Int} {w : Str} {ws2 : List Str}
    {st st2 : List Str × Str} (h : wrapStep width st w = some st2) :
    wrapWords width (w :: ws2) st = wrapWords width ws2 st2 := by
  show (match wrapStep width st w with
    | some s2 => wrapWords width ws2 s2
    | none => none) = _
  rw [h]

lemma wrapWords_spec {width : Int} (hw : 1 ≤ width) :
    ∀ (ws lines tl : List Str),
      (∀ w ∈ ws, goodTok w) →
      (∀ t ∈ tl, goodTok t) →
      (∀ l ∈ lines, lineOK width l ∧ '\n' ∉ l) →
      lineOK width (lineOf tl) →
      ∃ lines2 tl2,
        wrapWords width ws (lines, lineOf tl) = some (lines2, lineOf tl2) ∧
        (∀ t ∈ tl2, goodTok t) ∧
        (∀ l ∈ lines2, lineOK width l ∧ '\n' ∉ l) ∧
        lineOK width (lineOf tl2) := by
  intro ws
  induction ws with
  | nil =>
    intro lines tl _ htl hlines hok
    exact ⟨lines, tl, rfl, htl, hlines, hok⟩
  | cons w ws2 ih =>
    intro lines tl hws htl hlines hok
    have hwgood : goodTok w := hws w (by simp)
    have hws2 : ∀ x ∈ ws2, goodTok x := fun x hx => hws x (by simp [hx])
    have hokpair : ∀ a : Str, goodTok a →
        (∀ t ∈ ([a, w] : List Str), goodTok t) := by
      intro a ha t ht
      rcases List.mem_cons.mp ht with h1 | h1
      · subst h1; exact ha
      · simp at h1; subst h1; exact hwgood
    -- the candidate-path analysis, shared by the URL and short-word cases
    have main : (!urlTokenRe w && decide (width ≤ (w.length : Int))) = false →
        lineOK width (lineOf [w]) →
        ∃ lines2 tl2,
          wrapWords width (w :: ws2) (lines, lineOf tl) =
            some (lines2, lineOf tl2) ∧
          (∀ t ∈ tl2, goodTok t) ∧
          (∀ l ∈ lines2, lineOK width l ∧ '\n' ∉ l) ∧
          lineOK width (lineOf tl2) := by
      intro hc hokw
      have hwonly : ∀ t ∈ ([w] : List Str), goodTok t := by
        intro t ht; simp at ht; subst ht; exact hwgood
      by_cases htlnil : tl = []
      · subst htlnil
        rw [show lineOf ([] : List Str) = [] from rfl]
        by_cases hfit : width < (w.length : Int)
        · rw [wrapWords_cons_some (wrapStep_break_nil hc hfit lines)]
          refine ih (lines ++ [[]]) [w] hws2 hwonly ?_ hokw
          intro l hl
          rcases List.mem_append.mp hl with h1 | h1
          · exact hlines l h1
          · simp at h1; subst h1
            exact ⟨Or.inr (by simp; omega), by simp⟩
        · rw [wrapWords_cons_some (wrapStep_fit_nil hc hfit lines)]
          exact ih lines [w] hws2 hwonly hlines hokw
      · have hlne : lineOf tl ≠ [] := fun he =>
          htlnil ((lineOf_eq_nil_iff htl).mp he)
        have hcand : lineOf tl ++ ' ' :: w = lineOf (tl ++ [w]) :=
          (lineOf_append_singleton htlnil).symm
        by_cases hfit : width < ((lineOf tl ++ ' ' :: w).length : Int)
        · obtain ⟨ti, tlast, hconc⟩ :=
            (List.eq_nil_or_concat tl).resolve_left htlnil
          rw [List.concat_eq_append] at hconc
          have hparts : splitCh ' ' (lineOf tl) = tl :=
            splitCh_lineOf htlnil htl
          have hlast : (splitCh ' ' (lineOf tl)).getLastD [] = tlast := by
            rw [hparts, hconc]; exact List.getLastD_concat _ _ _
          have hdrop : (splitCh ' ' (lineOf tl)).dropLast = ti := by
            rw [hparts, hconc]; exact List.dropLast_concat
          have htlastgood : goodTok tlast := htl tlast (by simp [hconc])
          have htigood : ∀ t ∈ ti, goodTok t :=
            fun t ht => htl t (by simp [hconc, ht])
          by_cases hstick : tlast.length ≤ 2 ∧ 1 < tl.length
          · -- stickiness
            have hs1 : ((splitCh ' ' (lineOf tl)).getLastD []).length ≤ 2 := by
              rw [hlast]; exact hstick.1
            have hs2 : 1 < (splitCh ' ' (lineOf tl)).length := by
              rw [hparts]; exact hstick.2
            rw [wrapWords_cons_some (wrapStep_stick hc hlne hfit hs1 hs2 lines)]
            rw [hlast, hdrop]
            have hTgood := hokpair tlast htlastgood
            have heq2 : tlast ++ ' ' :: w = lineOf [tlast, w] :=
              (lineOf_pair tlast w).symm
            rw [heq2]
            refine ih (lines ++ [lineOf ti]) [tlast, w] hws2 hTgood ?_ ?_
            · intro l hl
              rcases List.mem_append.mp hl with h1 | h1
              · exact hlines l h1
              · simp at h1; subst h1
                refine ⟨?_, lineOf_no_nl htigood⟩
                rcases hok with ⟨t, htmem, hturl⟩ | hlen2
                · rw [words_lineOf htl, hconc] at htmem
                  rcases List.mem_append.mp htmem with h5 | h5
                  · exact Or.inl ⟨t, by rw [words_lineOf htigood]; exact h5,
                      hturl⟩
                  · exfalso
                    simp at h5; subst h5
                    have := urlTokenRe_length hturl
                    have := hstick.1
                    omega
                · right
                  have hmon := lineOf_dropLast_length tl (by omega)
                  rw [hconc, List.dropLast_concat, ← hconc] at hmon
                  omega
            · rw [lineOf_pair]
              cases hok2 : urlTokenRe w with
              | false =>
                right
                have hwlen : (w.length : Int) < width := by
                  by_contra hcon
                  push_neg at hcon
                  simp [hok2, hcon] at hc
                have := hstick.1
                simp only [List.length_append, List.length_cons]
                push_cast
                omega
              | true =>
                left
                refine ⟨w, ?_, hok2⟩
                rw [← lineOf_pair, words_lineOf hTgood]
                simp
          · -- plain push
            have hsneg :
                ¬ (((splitCh ' ' (lineOf tl)).getLastD []).length ≤ 2 ∧
                  1 < (splitCh ' ' (lineOf tl)).length) := by
              rw [hlast, hparts]; exact hstick
            rw [wrapWords_cons_some (wrapStep_push hc hlne hfit hsneg lines)]
            refine ih (lines ++ [lineOf tl]) [w] hws2 hwonly ?_ hokw
            intro l hl
            rcases List.mem_append.mp hl with h1 | h1
            · exact hlines l h1
            · simp at h1; subst h1
              exact ⟨hok, lineOf_no_nl htl⟩
        · rw [wrapWords_cons_some (wrapStep_fit_cons hc hlne hfit lines)]
          rw [hcand]
          refine ih lines (tl ++ [w]) hws2 ?_ hlines ?_
          · intro t ht
            rcases List.mem_append.mp ht with h1 | h1
            · exact htl t h1
            · simp at h1; subst h1; exact hwgood
          · right
            rw [← hcand]
            omega
    by_cases hurl : urlTokenRe w = true
    · refine main (by simp [hurl]) ?_
      left
      refine ⟨w, ?_, hurl⟩
      rw [words_lineOf (by intro t ht; simp at ht; subst ht; exact hwgood)]
      simp
    · have hurlf : urlTokenRe w = false := by
        cases h : urlTokenRe w
        · rfl
        · exact absurd h hurl
      by_cases hlen : width ≤ (w.length : Int)
      · -- hard split
        obtain ⟨chunks, rem, hchk, hcb, hremlen, hremne, hremmem⟩ :=
          hardChunks_spec hw w
        have hgr : goodTok rem :=
          ⟨hremne hwgood.1, fun x hx => hwgood.2 x (hremmem x hx)⟩
        rw [wrapWords_cons_some (wrapStep_hard hurlf hlen hchk lines
          (lineOf tl))]
        have hremeq : rem = lineOf [rem] := rfl
        rw [hremeq]
        refine ih _ [rem] hws2 (by
          intro t ht; simp at ht; subst ht; exact hgr) ?_ ?_
        · intro l hl
          rcases List.mem_append.mp hl with h1 | h1
          · by_cases hte : (lineOf tl).isEmpty
            · rw [if_pos hte] at h1
              exact hlines l h1
            · rw [if_neg hte] at h1
              rcases List.mem_append.mp h1 with h2 | h2
              · exact hlines l h2
              · simp at h2; subst h2
                exact ⟨hok, lineOf_no_nl htl⟩
          · obtain ⟨hlb, hlm⟩ := hcb l h1
            refine ⟨Or.inr (by omega), fun hnl => ?_⟩
            exact absurd (hwgood.2 '\n' (hlm '\n' hnl)) (by decide)
        · right
          rw [← hremeq]
          omega
      · refine main (by simp [hlen]) ?_
        right
        have h8 : lineOf [w] = w := rfl
        rw [h8]
        omega



-- ---------- token preservation through the wrapper ----------

/-- The token sequence of a list of lines. -/
def flatWords (ls : List Str) : List Str := (ls.map words).flatten

lemma flatWords_append_singleton (ls : List Str) (x : Str) :
    flatWords (ls ++ [x]) = flatWords ls ++ words x := by
  simp [flatWords]

lemma wrapWords_words {width : Int} :
    ∀ (ws lines tl : List Str),
      (∀ w ∈ ws, goodTok w ∧
        (urlTokenRe w = true ∨ (w.length : Int) < width)) →
      (∀ t ∈ tl, goodTok t) →
      ∃ lines2 tl2,
        wrapWords width ws (lines, lineOf tl) = some (lines2, lineOf tl2) ∧
        (∀ t ∈ tl2, goodTok t) ∧
        flatWords lines2 ++ tl2 = flatWords lines ++ tl ++ ws := by
  intro ws
  induction ws with
  | nil =>
    intro lines tl _ htl
    exact ⟨lines, tl, rfl, htl, by simp⟩
  | cons w ws2 ih =>
    intro lines tl hws htl
    obtain ⟨hwgood, hwsz⟩ := hws w (by simp)
    have hws2 : ∀ x ∈ ws2, goodTok x ∧
        (urlTokenRe x = true ∨ (x.length : Int) < width) :=
      fun x hx => hws x (by simp [hx])
    have hwonly : ∀ t ∈ ([w] : List Str), goodTok t := by
      intro t ht; simp at ht; subst ht; exact hwgood
    have hc : (!urlTokenRe w && decide (width ≤ (w.length : Int))) = false := by
      rcases hwsz with h | h
      · simp [h]
      · have : ¬ width ≤ (w.length : Int) := not_le.mpr h
        simp [this]
    by_cases htlnil : tl = []
    · subst htlnil
      rw [show lineOf ([] : List Str) = [] from rfl]
      by_cases hfit : width < (w.length : Int)
      · rw [wrapWords_cons_some (wrapStep_break_nil hc hfit lines)]
        obtain ⟨lines2, tl2, heq, h2, h3⟩ := ih (lines ++ [[]]) [w] hws2 hwonly
        refine ⟨lines2, tl2, heq, h2, ?_⟩
        rw [h3, flatWords_append_singleton]
        simp [words, wordsAcc]
      · rw [wrapWords_cons_some (wrapStep_fit_nil hc hfit lines)]
        obtain ⟨lines2, tl2, heq, h2, h3⟩ := ih lines [w] hws2 hwonly
        refine ⟨lines2, tl2, heq, h2, ?_⟩
        rw [h3]
        simp
    · have hlne : lineOf tl ≠ [] := fun he =>
        htlnil ((lineOf_eq_nil_iff htl).mp he)
      have hcand : lineOf tl ++ ' ' :: w = lineOf (tl ++ [w]) :=
        (lineOf_append_singleton htlnil).symm
      by_cases hfit : width < ((lineOf tl ++ ' ' :: w).length : Int)
      · obtain ⟨ti, tlast, hconc⟩ :=
          (List.eq_nil_or_concat tl).resolve_left htlnil
        rw [List.concat_eq_append] at hconc
        have hparts : splitCh ' ' (lineOf tl) = tl :=
          splitCh_lineOf htlnil htl
        have hlast : (splitCh ' ' (lineOf tl)).getLastD [] = tlast := by
          rw [hparts, hconc]; exact List.getLastD_concat _ _ _
        have hdrop : (splitCh ' ' (lineOf tl)).dropLast = ti := by
          rw [hparts, hconc]; exact List.dropLast_concat
        have htlastgood : goodTok tlast := htl tlast (by simp [hconc])
        have htigood : ∀ t ∈ ti, goodTok t :=
          fun t ht => htl t (by simp [hconc, ht])
        have hTgood : ∀ t ∈ ([tlast, w] : List Str), goodTok t := by
          intro t ht
          rcases List.mem_cons.mp ht with h1 | h1
          · subst h1; exact htlastgood
          · simp at h1; subst h1; exact hwgood
        by_cases hstick : tlast.length ≤ 2 ∧ 1 < tl.length
        · have hs1 : ((splitCh ' ' (lineOf tl)).getLastD []).length ≤ 2 := by
            rw [hlast]; exact hstick.1
          have hs2 : 1 < (splitCh ' ' (lineOf tl)).length := by
            rw [hparts]; exact hstick.2
          rw [wrapWords_cons_some (wrapStep_stick hc hlne hfit hs1 hs2 lines)]
          rw [hlast, hdrop]
          rw [show tlast ++ ' ' :: w = lineOf [tlast, w] from
            (lineOf_pair tlast w).symm]
          obtain ⟨lines2, tl2, heq, h2, h3⟩ :=
            ih (lines ++ [lineOf ti]) [tlast, w] hws2 hTgood
          refine ⟨lines2, tl2, heq, h2, ?_⟩
          rw [h3, flatWords_append_singleton, words_lineOf htigood, hconc]
          simp
        · have hsneg :
              ¬ (((splitCh ' ' (lineOf tl)).getLastD []).length ≤ 2 ∧
                1 < (splitCh ' ' (lineOf tl)).length) := by
            rw [hlast, hparts]; exact hstick
          rw [wrapWords_cons_some (wrapStep_push hc hlne hfit hsneg lines)]
          obtain ⟨lines2, tl2, heq, h2, h3⟩ :=
            ih (lines ++ [lineOf tl]) [w] hws2 hwonly
          refine ⟨lines2, tl2, heq, h2, ?_⟩
          rw [h3, flatWords_append_singleton, words_lineOf htl]
          simp
      · rw [wrapWords_cons_some (wrapStep_fit_cons hc hlne hfit lines)]
        rw [hcand]
        have hTgood : ∀ t ∈ tl ++ [w], goodTok t := by
          intro t ht
          rcases List.mem_append.mp ht with h1 | h1
          · exact htl t h1
          · simp at h1; subst h1; exact hwgood
        obtain ⟨lines2, tl2, heq, h2, h3⟩ := ih lines (tl ++ [w]) hws2 hTgood
        refine ⟨lines2, tl2, heq, h2, ?_⟩
        rw [h3]
        simp

-- ---------- wrapText corollaries ----------

lemma wrapText_some {width : Int} (hw : 1 ≤ width) (text hang : Str) :
    ∃ o, wrapText text width hang = some o := by
  obtain ⟨lines2, tl2, heq, h1, h2, h3⟩ :=
    wrapWords_spec hw (words text) [] [] (words_good_all text)
      (by simp) (by simp) (Or.inr (by simp [lineOf, joinSep]; omega))
  have heq2 : wrapWords width (words text) ([], []) =
      some (lines2, lineOf tl2) := heq
  unfold wrapText
  rw [heq2]
  exact ⟨_, rfl⟩

lemma prefixMap_nil (ls : List Str) :
    (match ls with
     | [] => ([] : List Str)
     | x :: xs => x :: xs.map (fun l => ([] : Str) ++ l)) = ls := by
  cases ls <;> simp

lemma wrapText_words {width : Int} (text : Str)
    (h : ∀ w ∈ words text, urlTokenRe w = true ∨ (w.length : Int) < width) :
    ∃ o, wrapText text width [] = some o ∧ words o = words text := by
  obtain ⟨lines2, tl2, heq, hgood2, h3⟩ :=
    wrapWords_words (words text) [] []
      (fun w hw => ⟨words_good_all text w hw, h w hw⟩) (by simp)
  have heq2 : wrapWords width (words text) ([], []) =
      some (lines2, lineOf tl2) := heq
  have h3b : flatWords lines2 ++ tl2 = words text := by
    rw [h3]; simp [flatWords]
  unfold wrapText
  rw [heq2]
  refine ⟨_, rfl, ?_⟩
  by_cases hemp : (lineOf tl2).isEmpty
  · have htl2 : tl2 = [] :=
      (lineOf_eq_nil_iff hgood2).mp (List.isEmpty_iff.mp hemp)
    rw [if_pos hemp, prefixMap_nil,
      words_joinSep (show isWS '\n' = true by decide)]
    subst htl2
    simpa [flatWords] using h3b
  · rw [if_neg hemp, prefixMap_nil,
      words_joinSep (show isWS '\n' = true by decide)]
    rw [List.map_append, List.flatten_append]
    show flatWords lines2 ++ (List.map words [lineOf tl2]).flatten = _
    rw [show (List.map words [lineOf tl2]).flatten = words (lineOf tl2) by
      simp]
    rw [words_lineOf hgood2]
    exact h3b

lemma wrapText_lineOK {width : Int} (hw : 1 ≤ width) (text : Str) :
    ∃ o, wrapText text width [] = some o ∧
      ∀ l ∈ splitCh '\n' o, lineOK width l := by
  obtain ⟨lines2, tl2, heq, hgood2, hlines2, hok2⟩ :=
    wrapWords_spec hw (words text) [] [] (words_good_all text)
      (by simp) (by simp) (Or.inr (by simp [lineOf, joinSep]; omega))
  have heq2 : wrapWords width (words text) ([], []) =
      some (lines2, lineOf tl2) := heq
  unfold wrapText
  rw [heq2]
  refine ⟨_, rfl, ?_⟩
  set lines3 := if (lineOf tl2).isEmpty then lines2
    else lines2 ++ [lineOf tl2] with hlines3
  have hall : ∀ l ∈ lines3, lineOK width l ∧ '\n' ∉ l := by
    intro l hl
    rw [hlines3] at hl
    by_cases hemp : (lineOf tl2).isEmpty
    · rw [if_pos hemp] at hl
      exact hlines2 l hl
    · rw [if_neg hemp] at hl
      rcases List.mem_append.mp hl with h1 | h1
      · exact hlines2 l h1
      · simp at h1; subst h1
        exact ⟨hok2, lineOf_no_nl hgood2⟩
  rw [prefixMap_nil]
  cases h3 : lines3 with
  | nil =>
    intro l hl
    rw [show joinSep ['\n'] ([] : List Str) = [] from rfl] at hl
    simp [splitCh, splitChAux] at hl
    subst hl
    right
    simp
    omega
  | cons x xs =>
    rw [← h3]
    rw [splitCh_joinSep '\n' lines3 (by rw [h3]; simp)
      (fun p hp c hc hce => by
        subst hce
        exact (hall p hp).2 hc)]
    intro l hl
    exact (hall l hl).1

lemma wrapText_idem {width : Int} {text o : Str}
    (h : ∀ w ∈ words text, urlTokenRe w = true ∨ (w.length : Int) < width)
    (ho : wrapText text width [] = some o) :
    wrapText o width [] = some o := by
  obtain ⟨o2, ho2, hw2⟩ := wrapText_words text h
  rw [ho] at ho2
  have ho2e : o2 = o := by
    injection ho2 with h9
    exact h9.symm
  subst ho2e
  have hsame : wrapText o2 width [] = wrapText text width [] := by
    unfold wrapText
    rw [hw2]
  rw [hsame, ho]

-- ---------- reflowParagraph corollaries ----------

lemma match_wrapText_some {width2 : Int} (hw2 : 1 ≤ width2) (B H : Str)
    (f : Str → List Str) :
    ∃ out, (match wrapText B width2 H with
            | some wr => some (f wr)
            | none => none) = some out := by
  obtain ⟨o, ho⟩ := wrapText_some hw2 B H
  exact ⟨f o, by rw [ho]⟩

lemma one_le_max20 (x : Int) : (1 : Int) ≤ max 20 x :=
  le_trans (by norm_num) (le_max_left 20 x)

lemma reflowParagraph_some {width : Int} (hw : 1 ≤ width)
    (lines : List Str) : ∃ out, reflowParagraph lines width = some out := by
  cases lines with
  | nil => exact ⟨[], rfl⟩
  | cons first tl =>
    cases hL : listRe first with
    | some v =>
      obtain ⟨ind, m, rest0⟩ := v
      simp only [reflowParagraph, hL]
      apply match_wrapText_some (one_le_max20 _)
    | none =>
      cases hD : defListRe first with
      | some v =>
        obtain ⟨ind, term, rest0⟩ := v
        simp only [reflowParagraph, hL, hD]
        apply match_wrapText_some (one_le_max20 _)
      | none =>
        simp only [reflowParagraph, hL, hD]
        by_cases hB : (first :: tl).any hardBreakRe
        · rw [if_pos hB]
          exact ⟨_, rfl⟩
        · rw [if_neg hB]
          by_cases hJ : (jsTrim (squashWS (joinSep [' ']
              ((first :: tl).map jsTrim)))).isEmpty
          · rw [if_pos hJ]
            exact ⟨_, rfl⟩
          · rw [if_neg hJ]
            apply match_wrapText_some hw

lemma words_joined_para (ls : List Str) :
    words (jsTrim (squashWS (joinSep [' '] (ls.map jsTrim)))) =
      flatWords ls := by
  rw [words_jsTrim, words_squash,
    words_joinSep (show isWS ' ' = true by decide)]
  unfold flatWords
  congr 1
  rw [List.map_map]
  apply List.map_congr_left
  intro a _
  exact words_jsTrim a

lemma reflowParagraph_words {width : Int} {first : Str} {tl : List Str}
    (hL : listRe first = none) (hD : defListRe first = none)
    (hB : (first :: tl).any hardBreakRe = false)
    (h : ∀ w ∈ flatWords (first :: tl),
      urlTokenRe w = true ∨ (w.length : Int) < width) :
    ∃ out, reflowParagraph (first :: tl) width = some out ∧
      flatWords out = flatWords (first :: tl) := by
  simp only [reflowParagraph, hL, hD, hB]
  rw [if_neg (by simp)]
  set joined := jsTrim (squashWS (joinSep [' ']
    ((first :: tl).map jsTrim))) with hjoin
  have hwords : words joined = flatWords (first :: tl) :=
    words_joined_para (first :: tl)
  by_cases hJ : joined.isEmpty
  · rw [if_pos hJ]
    refine ⟨[[]], rfl, ?_⟩
    have : joined = [] := List.isEmpty_iff.mp hJ
    rw [this] at hwords
    have : flatWords (first :: tl) = [] := by
      rw [← hwords]; simp [words, wordsAcc]
    rw [this]
    simp [flatWords, words, wordsAcc]
  · rw [if_neg hJ]
    obtain ⟨o, ho, hwo⟩ := wrapText_words joined (by
      intro w hwmem
      rw [hwords] at hwmem
      exact h w hwmem)
    rw [ho]
    refine ⟨splitCh '\n' o, rfl, ?_⟩
    show flatWords (splitCh '\n' o) = _
    unfold flatWords
    rw [words_splitNL, hwo, hwords]
    rfl

-- ---------- scan totality ----------

lemma flushP_some {width : Int} (hw : 1 ≤ width) (para : List Str) :
    ∃ f, flushP width para = some f := by
  unfold flushP
  by_cases h : para.isEmpty
  · exact ⟨[], by rw [if_pos h]⟩
  · obtain ⟨out, ho⟩ := reflowParagraph_some hw para
    exact ⟨out, by rw [if_neg h]; exact ho⟩

set_option maxHeartbeats 1000000 in
lemma collectScan_remaining_le (tI tD : Nat) :
    ∀ ls : List Str, ((collectScan tI tD ls).2.2).length ≤ ls.length := by
  intro ls
  induction ls with
  | nil => simp [collectScan]
  | cons line rest ih =>
    unfold collectScan
    by_cases h1 : line.all isWS = true
    · simp [h1]
    by_cases h2 : commentFenceRe (jsTrim line) = true
    · simp [h1, h2]
    by_cases h3 : tableFenceRe (jsTrim line) = true
    · simp [h1, h2, h3]
    by_cases h4 : (fenceRe (jsTrim line) || openBlockRe (jsTrim line)) = true
    · simp [h1, h2, h3, h4]
    by_cases h5 : (hrRe (jsTrim line) || pageRe (jsTrim line)) = true
    · simp [h1, h2, h3, h4, h5]
    by_cases h6 : (titleRe line || attrRe line || blockTitleRe line ||
        blockAttrRe line || anchorRe line || condRe line ||
        includeRe line || blockMacroRe line) = true
    · simp [h1, h2, h3, h4, h5, h6]
    by_cases h7 : contLineRe line = true
    · simp [h1, h2, h3, h4, h5, h6, h7]
    cases hL : listRe line with
    | some v =>
      obtain ⟨ind, m, r0⟩ := v
      by_cases h8 : (decide (ind.length ≤ tI) &&
          decide (markerDepth m ≤ tD)) = true
      · simp [h1, h2, h3, h4, h5, h6, h7, hL, h8]
      · simp only [h1, h2, h3, h4, h5, h6, h7, hL, h8,
          Bool.false_eq_true, if_false]
        simp only [Bool.not_eq_true] at h8
        simp [h1, h2, h3, h4, h5, h6, h7, h8]
        omega
    | none =>
      cases hD : defListRe line with
      | some v =>
        obtain ⟨ind, term, r0⟩ := v
        by_cases h9 : ind.length ≤ tI
        · simp [h1, h2, h3, h4, h5, h6, h7, hL, hD, h9]
        · simp [h1, h2, h3, h4, h5, h6, h7, hL, hD, h9]
          omega
      | none =>
        by_cases h10 : indentedCodeRe line = true
        · simp [h1, h2, h3, h4, h5, h6, h7, hL, hD, h10]
          omega
        · simp [h1, h2, h3, h4, h5, h6, h7, hL, hD, h10]
          omega

lemma collectListItem_remaining_le (first : Str) (rest : List Str) :
    ((collectListItem first rest).2.2).length ≤ rest.length := by
  unfold collectListItem
  repeat' split
  all_goals simp [collectScan_remaining_le]

lemma scanFull_some {width : Int} (hw : 1 ≤ width) :
    ∀ (n : Nat) (st : St) (lines : List Str), lines.length ≤ n →
      ∃ p, scanFull width n st lines = some p := by
  intro n
  induction n with
  | zero =>
    intro st lines hl
    have hnil : lines = [] := List.length_eq_zero.mp (Nat.le_zero.mp hl)
    subst hnil
    obtain ⟨f, hf⟩ := flushP_some hw st.para
    exact ⟨(f, { st with para := [] }), by rw [scanFull_nil, hf]; rfl⟩
  | succ n ih =>
    intro st lines hl
    cases lines with
    | nil =>
      obtain ⟨f, hf⟩ := flushP_some hw st.para
      exact ⟨(f, { st with para := [] }), by rw [scanFull_nil, hf]; rfl⟩
    | cons line rest =>
      have hrest : rest.length ≤ n := by
        simp only [List.length_cons] at hl
        omega
      obtain ⟨f, hf⟩ := flushP_some hw st.para
      rw [scanFull_succ]
      by_cases h1 : commentFenceRe (jsTrim line) = true
      · obtain ⟨p, hp⟩ := ih { st with para := [], cb := !st.cb } rest hrest
        rw [scanGo_cbFence h1, hf]
        simp [hp]
      have h1f := Bool.eq_false_iff.mpr h1
      by_cases h2 : st.cb = true
      · obtain ⟨p, hp⟩ := ih st rest hrest
        rw [scanGo_cbPass h1f h2]
        simp [hp]
      have h2f := Bool.eq_false_iff.mpr h2
      by_cases h3 : lineCommentRe line = true
      · obtain ⟨p, hp⟩ := ih { st with para := [] } rest hrest
        rw [scanGo_lineComment h1f h2f h3, hf]
        simp [hp]
      have h3f := Bool.eq_false_iff.mpr h3
      by_cases h4 : (blockTitleRe line || blockAttrRe line || anchorRe line ||
          condRe line || includeRe line || blockMacroRe line ||
          hrRe (jsTrim line) || pageRe (jsTrim line)) = true
      · obtain ⟨p, hp⟩ := ih { st with para := [] } rest hrest
        rw [scanGo_structural h1f h2f h3f h4, hf]
        simp [hp]
      have h4f := Bool.eq_false_iff.mpr h4
      by_cases h5 : tableFenceRe (jsTrim line) = true
      · obtain ⟨p, hp⟩ := ih { st with para := [], table := !st.table }
          rest hrest
        rw [scanGo_tableFence h1f h2f h3f h4f h5, hf]
        simp [hp]
      have h5f := Bool.eq_false_iff.mpr h5
      by_cases h6 : st.table = true
      · obtain ⟨p, hp⟩ := ih st rest hrest
        rw [scanGo_tablePass h1f h2f h3f h4f h5f h6]
        simp [hp]
      have h6f := Bool.eq_false_iff.mpr h6
      by_cases h7 : fenceRe (jsTrim line) = true
      · obtain ⟨p, hp⟩ := ih { st with para := [], fence := !st.fence }
          rest hrest
        rw [scanGo_fence h1f h2f h3f h4f h5f h6f h7, hf]
        simp [hp]
      have h7f := Bool.eq_false_iff.mpr h7
      by_cases h8 : openBlockRe (jsTrim line) = true
      · obtain ⟨p, hp⟩ := ih { st with para := [], openB := !st.openB }
          rest hrest
        rw [scanGo_openB h1f h2f h3f h4f h5f h6f h7f h8, hf]
        simp [hp]
      have h8f := Bool.eq_false_iff.mpr h8
      by_cases h9 : line.all isWS = true
      · obtain ⟨p, hp⟩ := ih { st with para := [], lit := false } rest hrest
        rw [scanGo_blank h1f h2f h3f h4f h5f h6f h7f h8f h9, hf]
        simp [hp]
      have h9f := Bool.eq_false_iff.mpr h9
      by_cases h10 : (st.fence || st.openB || titleRe line ||
          attrRe line) = true
      · obtain ⟨p, hp⟩ := ih { st with para := [] } rest hrest
        rw [scanGo_verbatimOrHead h1f h2f h3f h4f h5f h6f h7f h8f h9f h10, hf]
        simp [hp]
      have h10f := Bool.eq_false_iff.mpr h10
      by_cases h11 : (st.para.isEmpty && !st.lit && leadingSpaceRe line) = true
      · obtain ⟨p, hp⟩ := ih { st with para := [], lit := true } rest hrest
        rw [scanGo_leadingSpace h1f h2f h3f h4f h5f h6f h7f h8f h9f h10f h11,
          hf]
        simp [hp]
      have h11f := Bool.eq_false_iff.mpr h11
      by_cases h12 : st.lit = true
      · obtain ⟨p, hp⟩ := ih st rest hrest
        rw [scanGo_litPass h1f h2f h3f h4f h5f h6f h7f h8f h9f h10f h11f h12]
        simp [hp]
      have h12f := Bool.eq_false_iff.mpr h12
      rw [scanGo_tail h1f h2f h3f h4f h5f h6f h7f h8f h9f h10f h11f h12f]
      cases hA : admonRe line with
      | some v =>
        obtain ⟨lab, body⟩ := v
        obtain ⟨p, hp⟩ := ih { st with para := [] } rest hrest
        by_cases hbody : body.isEmpty
        · rw [hf]
          simp [hbody, hp]
        · obtain ⟨o, ho⟩ := wrapText_some
            (one_le_max20 (width - (((lab ++ [':', ' ']).length : Nat) : Int)))
            (jsTrim body) (spaces (lab ++ [':', ' ']).length)
          rw [hf]
          simp only [Option.some_bind]
          rw [if_neg hbody, ho]
          simp [hp]
      | none =>
        by_cases h13 : ((listRe line).isSome || (defListRe line).isSome) = true
        · rw [if_pos h13]
          obtain ⟨p, hp⟩ := ih { st with para := [] }
            (collectListItem line rest).2.2
            (le_trans (collectListItem_remaining_le line rest) hrest)
          by_cases hcplx : (collectListItem line rest).2.1 = true
          · rw [hf]
            simp [hcplx, hp]
          · obtain ⟨rs, hrs⟩ := reflowParagraph_some hw
              (collectListItem line rest).1
            have hcf := Bool.eq_false_iff.mpr hcplx
            rw [hf]
            simp [hcf, hrs, hp]
        · rw [if_neg h13]
          by_cases h14 : indentedCodeRe line = true
          · rw [if_pos h14]
            obtain ⟨p, hp⟩ := ih { st with para := [] } rest hrest
            rw [hf]
            simp [hp]
          · rw [if_neg h14]
            obtain ⟨p, hp⟩ := ih { st with para := st.para ++ [line] }
              rest hrest
            exact ⟨p, hp⟩

lemma reflowTextAdoc_some {width : Int} (hw : 1 ≤ width) (input : Str) :
    ∃ o, reflowTextAdoc input width = some o := by
  obtain ⟨p, hp⟩ := scanFull_some hw (splitLines input).length initSt
    (splitLines input) le_rfl
  show ∃ o, Option.map _
    (scanFull width (splitLines input).length initSt (splitLines input)) =
      some o
  rw [hp]
  exact ⟨_, rfl⟩

-- ---------- whitespace-only lines and scan step lemmas ----------

lemma jsTrim_all_ws {l : Str} (h : l.all isWS = true) : jsTrim l = [] := by
  have hd : l.dropWhile isWS = [] := by
    rw [List.dropWhile_eq_nil_iff]
    intro x hx
    exact (List.all_eq_true.mp h) x hx
  simp [jsTrim, hd]

lemma ws_head_ne {c : Char} (hc : isWS c = true) (d : Char)
    (hd : isWS d = false) : c ≠ d := by
  intro he
  subst he
  rw [hc] at hd
  exact absurd hd (by simp)

lemma blockTitleRe_ws {l : Str} (h : l.all isWS = true) :
    blockTitleRe l = false := by
  cases l with
  | nil => rfl
  | cons c r =>
    have hc : isWS c = true := (List.all_eq_true.mp h) c (by simp)
    have hne : c ≠ '.' := ws_head_ne hc '.' (by decide)
    unfold blockTitleRe
    split
    · rename_i heq
      exfalso
      injection heq with ha _
      exact hne ha
    · rfl

lemma blockAttrRe_ws {l : Str} (h : l.all isWS = true) :
    blockAttrRe l = false := by
  cases l with
  | nil => rfl
  | cons c r =>
    have hc : isWS c = true := (List.all_eq_true.mp h) c (by simp)
    have hne : c ≠ '[' := ws_head_ne hc '[' (by decide)
    unfold blockAttrRe
    split
    · rename_i heq
      exfalso
      injection heq with ha _
      exact hne ha
    · rfl

lemma anchorRe_ws {l : Str} (h : l.all isWS = true) :
    anchorRe l = false := by
  have hd : l.dropWhile isWS = [] := by
    rw [List.dropWhile_eq_nil_iff]
    intro x hx
    exact (List.all_eq_true.mp h) x hx
  unfold anchorRe
  rw [hd]

lemma lineCommentRe_ws {l : Str} (h : l.all isWS = true) :
    lineCommentRe l = false := by
  have hd : l.dropWhile isWS = [] := by
    rw [List.dropWhile_eq_nil_iff]
    intro x hx
    exact (List.all_eq_true.mp h) x hx
  unfold lineCommentRe
  rw [hd]

lemma condRe_ws {l : Str} (h : l.all isWS = true) : condRe l = false := by
  cases l with
  | nil => rfl
  | cons c r =>
    have hc : isWS c = true := (List.all_eq_true.mp h) c (by simp)
    have hni : c ≠ 'i' := ws_head_ne hc 'i' (by decide)
    have hne : c ≠ 'e' := ws_head_ne hc 'e' (by decide)
    have hb1 : ('i' == c) = false := beq_eq_false_iff_ne.mpr (Ne.symm hni)
    have hb2 : ('e' == c) = false := beq_eq_false_iff_ne.mpr (Ne.symm hne)
    simp [condRe, pfxOf, hb1, hb2]

lemma includeRe_ws {l : Str} (h : l.all isWS = true) :
    includeRe l = false := by
  cases l with
  | nil => rfl
  | cons c r =>
    have hc : isWS c = true := (List.all_eq_true.mp h) c (by simp)
    have hni : c ≠ 'i' := ws_head_ne hc 'i' (by decide)
    have hb1 : ('i' == c) = false := beq_eq_false_iff_ne.mpr (Ne.symm hni)
    simp [includeRe, pfxOf, hb1]

lemma isWS_not_alpha {c : Char} (h : isWS c = true) : isAlphaC c = false := by
  unfold isWS at h
  unfold isAlphaC
  rw [Bool.eq_false_iff]
  intro hcontra
  simp only [Bool.or_eq_true, Bool.and_eq_true, beq_iff_eq,
    decide_eq_true_eq] at h hcontra
  omega

lemma blockMacroRe_ws {l : Str} (h : l.all isWS = true) :
    blockMacroRe l = false := by
  cases l with
  | nil => rfl
  | cons c r =>
    have hc : isWS c = true := (List.all_eq_true.mp h) c (by simp)
    unfold blockMacroRe
    simp [isWS_not_alpha hc]

lemma structuralOr_ws {l : Str} (h : l.all isWS = true) :
    (blockTitleRe l || blockAttrRe l || anchorRe l ||
      condRe l || includeRe l || blockMacroRe l ||
      hrRe (jsTrim l) || pageRe (jsTrim l)) = false := by
  rw [jsTrim_all_ws h, blockTitleRe_ws h, blockAttrRe_ws h, anchorRe_ws h,
    condRe_ws h, includeRe_ws h, blockMacroRe_ws h]
  rfl

lemma St.update_para_self {st : St} (h : st.para = []) :
    { st with para := [] } = st := by
  cases st
  simp_all

/-- Stepping over a whitespace-only line outside comment blocks and
tables: the paragraph is flushed, the literal flag cleared, and an empty
line is pushed (unless the line is the empty final split fragment). -/
lemma scan_blank_step {width : Int} {n : Nat} {st : St} {line : Str}
    {rest : List Str} (hcb : st.cb = false) (htb : st.table = false)
    (hpara : st.para = []) (hws : line.all isWS = true)
    (hlast : ¬(rest = [] ∧ line = [])) :
    scanFull width (n+1) st (line :: rest) =
      (scanFull width n { st with para := [], lit := false } rest).map
        fun p => ([] :: p.1, p.2) := by
  have ht := jsTrim_all_ws hws
  rw [scanFull_succ,
    scanGo_blank (by rw [ht]; rfl) hcb (lineCommentRe_ws hws)
      (structuralOr_ws hws) (by rw [ht]; rfl) htb (by rw [ht]; rfl)
      (by rw [ht]; rfl) hws]
  rw [hpara]
  have hcond : (rest.isEmpty && line.isEmpty) = false := by
    rcases Decidable.not_and_iff_or_not.mp hlast with hh | hh
    · have : rest.isEmpty = false := isEmpty_false_of_ne hh
      simp [this]
    · have : line.isEmpty = false := isEmpty_false_of_ne hh
      simp [this]
  simp [flushP, hcond]

/-- Stepping over any non-comment-fence line while the comment-block
mode is active: the line is emitted verbatim and the state is untouched. -/
lemma scan_cb_step {width : Int} {n : Nat} {st : St} {line : Str}
    {rest : List Str} (h1 : commentFenceRe (jsTrim line) = false)
    (h2 : st.cb = true) :
    scanFull width (n+1) st (line :: rest) =
      (scanFull width n st rest).map fun p => (line :: p.1, p.2) := by
  rw [scanFull_succ, scanGo_cbPass h1 h2]

/-- Inside an active comment block, a run of lines free of comment
fences is emitted verbatim with the state unchanged. -/
lemma scan_cb_run {width : Int} :
    ∀ (lines : List Str) (st : St), st.cb = true → st.para = [] →
      (∀ l ∈ lines, commentFenceRe (jsTrim l) = false) →
      scanFull width lines.length st lines = some (lines, st) := by
  intro lines
  induction lines with
  | nil =>
    intro st h2 hpara _
    rw [scanFull_nil, hpara]
    simp [flushP, St.update_para_self hpara]
  | cons l rest ih =>
    intro st h2 hpara hno
    rw [show (l :: rest).length = rest.length + 1 from rfl,
      scan_cb_step (hno l (by simp)) h2,
      ih st h2 hpara (fun x hx => hno x (by simp [hx]))]
    rfl

/-- Inside an active table, a run of lines free of table fences is
emitted verbatim (comment fences inside may toggle the comment flag, but
every line still passes through unchanged). -/
lemma scan_table_run {width : Int} :
    ∀ (lines : List Str) (st : St), st.table = true → st.para = [] →
      (∀ l ∈ lines, tableFenceRe (jsTrim l) = false) →
      ∃ st2 : St, scanFull width lines.length st lines =
        some (lines, st2) := by
  intro lines
  induction lines with
  | nil =>
    intro st h6 hpara _
    refine ⟨st, ?_⟩
    rw [scanFull_nil, hpara]
    simp [flushP, St.update_para_self hpara]
  | cons l rest ih =>
    intro st h6 hpara hno
    have hrest : ∀ x ∈ rest, tableFenceRe (jsTrim x) = false :=
      fun x hx => hno x (by simp [hx])
    rw [show (l :: rest).length = rest.length + 1 from rfl, scanFull_succ]
    by_cases h1 : commentFenceRe (jsTrim l) = true
    · obtain ⟨st2, hst2⟩ := ih { st with para := [], cb := !st.cb }
        (by simpa using h6) rfl hrest
      rw [scanGo_cbFence h1, hpara, hst2]
      simp [flushP]
    have h1f := Bool.eq_false_iff.mpr h1
    by_cases h2 : st.cb = true
    · obtain ⟨st2, hst2⟩ := ih st h6 hpara hrest
      rw [scanGo_cbPass h1f h2, hst2]
      exact ⟨st2, rfl⟩
    have h2f := Bool.eq_false_iff.mpr h2
    by_cases h3 : lineCommentRe l = true
    · obtain ⟨st2, hst2⟩ := ih { st with para := [] }
        (by simpa using h6) rfl hrest
      rw [scanGo_lineComment h1f h2f h3, hpara, hst2]
      simp [flushP]
    have h3f := Bool.eq_false_iff.mpr h3
    by_cases h4 : (blockTitleRe l || blockAttrRe l || anchorRe l ||
        condRe l || includeRe l || blockMacroRe l ||
        hrRe (jsTrim l) || pageRe (jsTrim l)) = true
    · obtain ⟨st2, hst2⟩ := ih { st with para := [] }
        (by simpa using h6) rfl hrest
      rw [scanGo_structural h1f h2f h3f h4, hpara, hst2]
      simp [flushP]
    have h4f := Bool.eq_false_iff.mpr h4
    obtain ⟨st2, hst2⟩ := ih st h6 hpara hrest
    rw [scanGo_tablePass h1f h2f h3f h4f (hno l (by simp)) h6, hst2]
    exact ⟨st2, rfl⟩

/-- Stepping over a non-blank line while a literal paragraph is active:
the line is always emitted unchanged, though mode flags may toggle; the
literal flag and the empty paragraph persist. -/
lemma scan_lit_step {width : Int} {n : Nat} {st : St} {line : Str}
    {rest : List Str} (hlit : st.lit = true) (hpara : st.para = [])
    (hws : line.all isWS = false) :
    ∃ st2 : St, st2.lit = true ∧ st2.para = [] ∧
      scanFull width (n+1) st (line :: rest) =
        (scanFull width n st2 rest).map fun p => (line :: p.1, p.2) := by
  rw [scanFull_succ]
  by_cases h1 : commentFenceRe (jsTrim line) = true
  · refine ⟨{ st with para := [], cb := !st.cb }, hlit, rfl, ?_⟩
    rw [scanGo_cbFence h1, hpara]
    simp [flushP]
  have h1f := Bool.eq_false_iff.mpr h1
  by_cases h2 : st.cb = true
  · refine ⟨st, hlit, hpara, ?_⟩
    rw [scanGo_cbPass h1f h2]
  have h2f := Bool.eq_false_iff.mpr h2
  by_cases h3 : lineCommentRe line = true
  · refine ⟨{ st with para := [] }, hlit, rfl, ?_⟩
    rw [scanGo_lineComment h1f h2f h3, hpara]
    simp [flushP]
  have h3f := Bool.eq_false_iff.mpr h3
  by_cases h4 : (blockTitleRe line || blockAttrRe line || anchorRe line ||
      condRe line || includeRe line || blockMacroRe line ||
      hrRe (jsTrim line) || pageRe (jsTrim line)) = true
  · refine ⟨{ st with para := [] }, hlit, rfl, ?_⟩
    rw [scanGo_structural h1f h2f h3f h4, hpara]
    simp [flushP]
  have h4f := Bool.eq_false_iff.mpr h4
  by_cases h5 : tableFenceRe (jsTrim line) = true
  · refine ⟨{ st with para := [], table := !st.table }, hlit, rfl, ?_⟩
    rw [scanGo_tableFence h1f h2f h3f h4f h5, hpara]
    simp [flushP]
  have h5f := Bool.eq_false_iff.mpr h5
  by_cases h6 : st.table = true
  · refine ⟨st, hlit, hpara, ?_⟩
    rw [scanGo_tablePass h1f h2f h3f h4f h5f h6]
  have h6f := Bool.eq_false_iff.mpr h6
  by_cases h7 : fenceRe (jsTrim line) = true
  · refine ⟨{ st with para := [], fence := !st.fence }, hlit, rfl, ?_⟩
    rw [scanGo_fence h1f h2f h3f h4f h5f h6f h7, hpara]
    simp [flushP]
  have h7f := Bool.eq_false_iff.mpr h7
  by_cases h8 : openBlockRe (jsTrim line) = true
  · refine ⟨{ st with para := [], openB := !st.openB }, hlit, rfl, ?_⟩
    rw [scanGo_openB h1f h2f h3f h4f h5f h6f h7f h8, hpara]
    simp [flushP]
  have h8f := Bool.eq_false_iff.mpr h8
  by_cases h10 : (st.fence || st.openB || titleRe line || attrRe line) = true
  · refine ⟨{ st with para := [] }, hlit, rfl, ?_⟩
    rw [scanGo_verbatimOrHead h1f h2f h3f h4f h5f h6f h7f h8f hws h10, hpara]
    simp [flushP]
  have h10f := Bool.eq_false_iff.mpr h10
  have h11f : (st.para.isEmpty && !st.lit && leadingSpaceRe line) = false := by
    simp [hlit]
  refine ⟨st, hlit, hpara, ?_⟩
  rw [scanGo_litPass h1f h2f h3f h4f h5f h6f h7f h8f hws h10f h11f hlit]

/-- Splitting at a bare newline emits the reversed accumulator and restarts. -/
theorem splitLinesAux_nl (rest acc : Str) :
    splitLinesAux ('\n' :: rest) acc = acc.reverse :: splitLinesAux rest [] := rfl

/-- Splitting at a carriage-return newline pair emits the reversed accumulator and restarts. -/
theorem splitLinesAux_crlf (rest acc : Str) :
    splitLinesAux ('\r' :: '\n' :: rest) acc =
      acc.reverse :: splitLinesAux rest [] := rfl

/-- Splitting steps over any character that does not open a terminator. -/
theorem splitLinesAux_step (c : Char) (t acc : Str) (h1 : c ≠ '\n')
    (h2 : c = '\r' → t.head? ≠ some '\n') :
    splitLinesAux (c :: t) acc = splitLinesAux t (c :: acc) := by
  rw [splitLinesAux.eq_def]
  split
  · rename_i heq
    simp at heq
  · rename_i heq
    injection heq with hc ht
    exact absurd (by rw [ht]; rfl : t.head? = some '\n') (h2 hc)
  · rename_i heq
    injection heq with hc ht
    exact absurd hc h1
  · rename_i heq
    injection heq with hc ht
    subst hc
    subst ht
    rfl

/-- Interleave lines with chosen terminators (the default terminator,
used when the list of separators runs short, is a bare newline). -/
def interLines : List Str → List Str → Str
  | [], _ => []
  | [l], _ => l
  | l :: l2 :: ls, seps =>
    l ++ List.headD seps ['\n'] ++ interLines (l2 :: ls) seps.tail

/-- A separator list of newline or carriage-return newline terminators
keeps that shape under headD and tail. -/
theorem sepOK_headD (seps : List Str)
    (h : ∀ x ∈ seps, x = ['\n'] ∨ x = ['\r', '\n']) :
    (List.headD seps ['\n'] = ['\n'] ∨ List.headD seps ['\n'] = ['\r', '\n'])
      ∧ ∀ x ∈ seps.tail, x = ['\n'] ∨ x = ['\r', '\n'] := by
  cases seps with
  | nil => exact ⟨Or.inl rfl, by simp⟩
  | cons a l =>
    exact ⟨h a (by simp), fun x hx => h x (List.mem_cons_of_mem a (by simpa using hx))⟩

/-- Splitting a line free of newlines emits it whole at the end of input. -/
theorem splitLinesAux_flush : ∀ (l acc : Str), '\n' ∉ l →
    splitLinesAux l acc = [acc.reverse ++ l]
  | [], acc, _ => by simp [splitLinesAux]
  | c :: l2, acc, h => by
    have hc : c ≠ '\n' := fun he => h (he ▸ List.mem_cons_self c l2)
    have h2 : '\n' ∉ l2 := fun he => h (List.mem_cons_of_mem c he)
    rw [splitLinesAux_step c l2 acc hc]
    · rw [splitLinesAux_flush l2 (c :: acc) h2]
      simp
    · intro _ hhd
      cases l2 with
      | nil => simp at hhd
      | cons d l3 =>
        have : d = '\n' := by simpa using hhd
        exact h2 (this ▸ List.mem_cons_self d l3)

/-- Splitting a clean line followed by either terminator emits it as one fragment. -/
theorem splitLinesAux_sep : ∀ (l : Str), ∀ (acc sep rest : Str), '\n' ∉ l →
    l.getLast? ≠ some '\r' → (sep = ['\n'] ∨ sep = ['\r', '\n']) →
    splitLinesAux (l ++ sep ++ rest) acc =
      (acc.reverse ++ l) :: splitLinesAux rest []
  | [], acc, sep, rest, _, _, hsep => by
    rcases hsep with rfl | rfl
    · simp [splitLinesAux_nl]
    · simp [splitLinesAux_crlf]
  | c :: l2, acc, sep, rest, h, hlast, hsep => by
    have hc : c ≠ '\n' := fun he => h (he ▸ List.mem_cons_self c l2)
    have h2 : '\n' ∉ l2 := fun he => h (List.mem_cons_of_mem c he)
    have hstep : splitLinesAux ((c :: l2) ++ sep ++ rest) acc =
        splitLinesAux (l2 ++ sep ++ rest) (c :: acc) := by
      apply splitLinesAux_step c (l2 ++ sep ++ rest) acc hc
      intro hcr hhd
      cases l2 with
      | nil =>
        exact hlast (by simp [hcr])
      | cons d l3 =>
        have : d = '\n' := by simpa using hhd
        exact h2 (this ▸ List.mem_cons_self d l3)
    rw [hstep, splitLinesAux_sep l2 (c :: acc) sep rest h2 ?hl hsep]
    · simp
    case hl =>
      cases l2 with
      | nil => simp
      | cons d l3 =>
        rw [List.getLast?_cons_cons] at hlast
        exact hlast

/-- Lines joined by any mix of the two terminators split back to themselves: the split is uniform over newline and carriage-return newline. -/
theorem splitLines_interLines : ∀ (ls seps : List Str), ls ≠ [] →
    (∀ l ∈ ls, '\n' ∉ l ∧ l.getLast? ≠ some '\r') →
    (∀ x ∈ seps, x = ['\n'] ∨ x = ['\r', '\n']) →
    splitLines (interLines ls seps) = ls
  | [], _, hne, _, _ => absurd rfl hne
  | [l], seps, _, hclean, _ => by
    have := (hclean l (by simp)).1
    simp [interLines, splitLines, splitLinesAux_flush l [] this]
  | l :: l2 :: ls, seps, _, hclean, hseps => by
    have hl := hclean l (by simp)
    obtain ⟨hhd, htl⟩ := sepOK_headD seps hseps
    have hrec := splitLines_interLines (l2 :: ls) seps.tail (by simp)
      (fun x hx => hclean x (List.mem_cons_of_mem l hx)) htl
    simp only [interLines, splitLines] at hrec ⊢
    rw [splitLinesAux_sep l []
      (List.headD seps ['\n']) (interLines (l2 :: ls) seps.tail)
      hl.1 hl.2 hhd, hrec]
    simp

/-- The trailing-newline test looks only at the last character. -/
theorem endsNLb_eq_getLast (s : Str) :
    endsNLb s = (s.getLast? == some '\n') := by
  unfold endsNLb
  split
  · rename_i heq
    rw [← List.head?_reverse, heq]
    simp
  · rename_i hno
    rw [← List.head?_reverse]
    cases hr : s.reverse with
    | nil => simp
    | cons c t =>
      by_cases hc : c = '\n'
      · exact absurd (hr.trans (by rw [hc])) (hno t)
      · simp [hc]

/-- The trailing-newline test of an append is that of a nonempty right part. -/
theorem endsNLb_append (a b : Str) (hb : b ≠ []) :
    endsNLb (a ++ b) = endsNLb b := by
  rw [endsNLb_eq_getLast, endsNLb_eq_getLast, List.getLast?_append_of_ne_nil a hb]

/-- Interleaving at least two lines gives a nonempty string. -/
theorem interLines_cons2_ne_nil (x y : Str) (zs seps : List Str)
    (hseps : ∀ s ∈ seps, s = ['\n'] ∨ s = ['\r', '\n']) :
    interLines (x :: y :: zs) seps ≠ [] := by
  obtain ⟨hhd, _⟩ := sepOK_headD seps hseps
  simp only [interLines]
  intro hc
  rcases hhd with h | h <;> rw [h] at hc <;> simp at hc

/-- The trailing-newline test of an interleaved document does not depend on the choice of terminators. -/
theorem endsNLb_interLines : ∀ (ls s1 s2 : List Str),
    (∀ x ∈ s1, x = ['\n'] ∨ x = ['\r', '\n']) →
    (∀ x ∈ s2, x = ['\n'] ∨ x = ['\r', '\n']) →
    endsNLb (interLines ls s1) = endsNLb (interLines ls s2)
  | [], _, _, _, _ => rfl
  | [l], _, _, _, _ => rfl
  | l :: l2 :: ls, s1, s2, h1, h2 => by
    obtain ⟨hhd1, htl1⟩ := sepOK_headD s1 h1
    obtain ⟨hhd2, htl2⟩ := sepOK_headD s2 h2
    have hsep1 : endsNLb (List.headD s1 ['\n']) = true := by
      rcases hhd1 with h | h <;> rw [h] <;> decide
    have hsep2 : endsNLb (List.headD s2 ['\n']) = true := by
      rcases hhd2 with h | h <;> rw [h] <;> decide
    have hsepne1 : List.headD s1 ['\n'] ≠ [] := by
      rcases hhd1 with h | h <;> rw [h] <;> simp
    have hsepne2 : List.headD s2 ['\n'] ≠ [] := by
      rcases hhd2 with h | h <;> rw [h] <;> simp
    simp only [interLines]
    cases ls with
    | nil =>
      by_cases hl2 : l2 = ([] : Str)
      · subst hl2
        simp only [interLines]
        rw [List.append_nil, List.append_nil,
          endsNLb_append l (List.headD s1 ['\n']) hsepne1,
          endsNLb_append l (List.headD s2 ['\n']) hsepne2, hsep1, hsep2]
      · simp only [interLines]
        rw [List.append_assoc, List.append_assoc,
          endsNLb_append l _ (by simp [hl2]),
          endsNLb_append l _ (by simp [hl2]),
          endsNLb_append _ l2 hl2, endsNLb_append _ l2 hl2]
    | cons z zs =>
      have hne1 := interLines_cons2_ne_nil l2 z zs s1.tail htl1
      have hne2 := interLines_cons2_ne_nil l2 z zs s2.tail htl2
      rw [List.append_assoc, List.append_assoc,
        endsNLb_append l _ (by simp [hne1]),
        endsNLb_append l _ (by simp [hne2]),
        endsNLb_append _ _ hne1, endsNLb_append _ _ hne2]
      exact endsNLb_interLines (l2 :: z :: zs) s1.tail s2.tail htl1 htl2

/-- The reflow of an interleaved document does not depend on the choice of terminators. -/
theorem reflowTextAdoc_interLines (ls s1 s2 : List Str) (width : Int)
    (hne : ls ≠ []) (hclean : ∀ l ∈ ls, '\n' ∉ l ∧ l.getLast? ≠ some '\r')
    (h1 : ∀ x ∈ s1, x = ['\n'] ∨ x = ['\r', '\n'])
    (h2 : ∀ x ∈ s2, x = ['\n'] ∨ x = ['\r', '\n']) :
    reflowTextAdoc (interLines ls s1) width =
      reflowTextAdoc (interLines ls s2) width := by
  simp only [reflowTextAdoc]
  rw [splitLines_interLines ls s1 hne hclean h1,
    splitLines_interLines ls s2 hne hclean h2,
    endsNLb_interLines ls s1 s2 h1 h2]

-- ==================== Claim theorems ====================

/-- C1 counterexample: the spec claims reflowTextAdoc is idempotent for
every document and width.  The document below at width 10 refutes it:
the first pass wraps the prose so that an output line starts with the
token a. followed by a space, which the second pass re-classifies as a
lettered list item and re-wraps with a hanging indent, producing a
different document. -/
theorem claim1_counterexample :
    reflowTextAdoc (str "xx a. bbbbb ccccc ddddd\n") 10 =
      some (str "xx\na. bbbbb\nccccc\nddddd\n") ∧
    reflowTextAdoc (str "xx\na. bbbbb\nccccc\nddddd\n") 10 =
      some (str "xx\na. bbbbb ccccc ddddd\n") ∧
    str "xx\na. bbbbb ccccc ddddd\n" ≠ str "xx\na. bbbbb\nccccc\nddddd\n" :=
  ⟨by decide, by decide, by decide⟩

/-- C1 amended: document-level idempotence fails because wrapped prose
can be re-classified as markup on the second pass; what holds is
idempotence of the wrapping stage itself: rewrapping the output of
wrapText at the same width with the empty hanging prefix returns it
unchanged, whenever every token of the text is a URL token or is shorter
than the width. -/
theorem claim1_amended (width : Int) (text o : Str)
    (h : ∀ w ∈ words text, urlTokenRe w = true ∨ (w.length : Int) < width)
    (ho : wrapText text width [] = some o) :
    wrapText o width [] = some o :=
  wrapText_idem h ho

/-- C1 witness: claim1_amended applied to a concrete text at width 8. -/
theorem claim1_witness :
    wrapText (str "hello\nworld") 8 [] = some (str "hello\nworld") :=
  claim1_amended 8 (str "hello world") (str "hello\nworld") (by decide)
    (by decide)

/-- C2 counterexample: the spec claims the token sequence of a reflowed
non-hard-break, non-literal prose paragraph equals that of the source.
The one-token prose paragraph below at width 4 is hard-split into three
chunks, so the token sequence changes. -/
theorem claim2_counterexample :
    reflowTextAdoc (str "abcdefghij") 4 = some (str "abcd\nefgh\nij") ∧
    listRe (str "abcdefghij") = none ∧
    defListRe (str "abcdefghij") = none ∧
    hardBreakRe (str "abcdefghij") = false ∧
    leadingSpaceRe (str "abcdefghij") = false ∧
    words (str "abcd\nefgh\nij") ≠ words (str "abcdefghij") :=
  ⟨by decide, by decide, by decide, by decide, by decide, by decide⟩

/-- C2 amended: token preservation holds for a non-list, non-hard-break
paragraph provided additionally that every token is a URL token or is
shorter than the width (so that the hard-split rule never fires): the
concatenated token sequence of the reflowed lines equals that of the
source lines. -/
theorem claim2_amended (width : Int) (first : Str) (tl : List Str)
    (hL : listRe first = none) (hD : defListRe first = none)
    (hB : (first :: tl).any hardBreakRe = false)
    (h : ∀ w ∈ flatWords (first :: tl),
      urlTokenRe w = true ∨ (w.length : Int) < width) :
    ∃ out, reflowParagraph (first :: tl) width = some out ∧
      flatWords out = flatWords (first :: tl) :=
  reflowParagraph_words hL hD hB h

/-- C2 witness: claim2_amended applied to a concrete paragraph. -/
theorem claim2_witness :
    ∃ out, reflowParagraph [str "alpha beta gamma delta"] 10 = some out ∧
      flatWords out = flatWords [str "alpha beta gamma delta"] :=
  claim2_amended 10 (str "alpha beta gamma delta") [] (by decide) (by decide)
    (by decide) (by decide)

/-- Exemption set of the width-bound claim C3: blank lines, lines whose
first character is a space, fence and delimiter lines, and lines that
consist of a single URL token longer than the width. -/
def widthExempt (width : Int) (l : Str) : Bool :=
  l.all isWS ||
  (match l with
   | ' ' :: _ => true
   | _ => false) ||
  fenceRe (jsTrim l) || openBlockRe (jsTrim l) || tableFenceRe (jsTrim l) ||
  commentFenceRe (jsTrim l) ||
  (match words l with
   | [u] => urlTokenRe u && decide (width < (u.length : Int))
   | _ => false)

/-- C3 counterexample: the spec claims every non-exempt output line has
length at most the width.  At width 10, the document below wraps into a
line of length 12: the short-word stickiness rule moves the two-letter
token to the next line together with the following long word. -/
theorem claim3_counterexample :
    reflowTextAdoc (str "xxxxx ab wwwwwwwww") 10 =
      some (str "xxxxx\nab wwwwwwwww") ∧
    (str "ab wwwwwwwww") ∈ splitCh '\n' (str "xxxxx\nab wwwwwwwww") ∧
    widthExempt 10 (str "ab wwwwwwwww") = false ∧
    10 < ((str "ab wwwwwwwww").length : Int) :=
  ⟨by decide, by decide, by decide, by decide⟩

/-- C3 amended: for the wrapper applied to a normal paragraph (empty
hanging prefix) at a positive width, every produced line either contains
a URL token or has length at most width plus two: the stickiness rule
can exceed the width by at most two columns. -/
theorem claim3_amended (width : Int) (text o : Str) (hw : 1 ≤ width)
    (ho : wrapText text width [] = some o) :
    ∀ l ∈ splitCh '\n' o,
      (∃ t ∈ words l, urlTokenRe t = true) ∨
        (l.length : Int) ≤ width + 2 := by
  obtain ⟨o2, ho2, hok⟩ := wrapText_lineOK hw text
  rw [ho] at ho2
  have he : o2 = o := by
    injection ho2 with h9
    exact h9.symm
  subst he
  exact fun l hl => hok l hl

/-- C3 witness: claim3_amended applied at width 10 to the line of the
counterexample, whose length is exactly width plus two. -/
theorem claim3_witness :
    (∃ t ∈ words (str "ab wwwwwwwww"), urlTokenRe t = true) ∨
      ((str "ab wwwwwwwww").length : Int) ≤ 10 + 2 :=
  claim3_amended 10 (str "xxxxx ab wwwwwwwww") (str "xxxxx\nab wwwwwwwww")
    (by decide) (by decide) (str "ab wwwwwwwww") (by decide)

/-- C4 counterexample: the spec claims every line strictly between a
block-open toggle and its matching close is reproduced character for
character.  Inside a generic fence, a whitespace-only line reaches the
blank-line branch, which precedes the fence check, and is emitted as an
empty line. -/
theorem claim4_counterexample :
    reflowTextAdoc (str "----\n \n----\n") 30 = some (str "----\n\n----\n") ∧
    str "----\n\n----\n" ≠ str "----\n \n----\n" :=
  ⟨by decide, by decide⟩

/-- C4 amended: verbatim reproduction does hold for comment blocks and
tables: while the comment-block mode is active, any run of lines free of
comment fences is emitted character for character with the state
unchanged; while the table mode is active, any run of lines free of
table fences is emitted character for character.  For generic fences and
open blocks it fails on whitespace-only interior lines. -/
theorem claim4_amended (width : Int) :
    (∀ (lines : List Str) (st : St), st.cb = true → st.para = [] →
      (∀ l ∈ lines, commentFenceRe (jsTrim l) = false) →
      scanFull width lines.length st lines = some (lines, st)) ∧
    (∀ (lines : List Str) (st : St), st.table = true → st.para = [] →
      (∀ l ∈ lines, tableFenceRe (jsTrim l) = false) →
      ∃ st2 : St, scanFull width lines.length st lines =
        some (lines, st2)) :=
  ⟨fun lines st h1 h2 h3 => scan_cb_run lines st h1 h2 h3,
   fun lines st h1 h2 h3 => scan_table_run lines st h1 h2 h3⟩

/-- C4 witness: claim4_amended applied inside a comment block to two
concrete lines, one of them blank. -/
theorem claim4_witness :
    scanFull 30 2 ⟨false, false, false, true, false, []⟩
      [str "code line", str ""] =
      some ([str "code line", str ""],
        ⟨false, false, false, true, false, []⟩) :=
  (claim4_amended 30).1 [str "code line", str ""]
    ⟨false, false, false, true, false, []⟩ rfl rfl (by decide)

/-- C5 counterexample: the spec claims at most one block mode is active
at a time and that a table fence inside an active generic fence changes
no mode.  After scanning a fence line and then a table fence line, both
the fence flag and the table flag of the scan state are true, because
the table-fence check precedes the in-fence check. -/
theorem claim5_counterexample :
    scanFull 20 2 initSt [str "----", str "|==="] =
      some ([str "----", str "|==="],
        ⟨true, false, true, false, false, []⟩) := by decide

/-- C5 amended: the mode flags are independent booleans and can overlap;
what does hold is exclusivity under the comment-block mode: while it is
active, a line that is not a comment fence is emitted verbatim and
changes no flag at all. -/
theorem claim5_amended (width : Int) (n : Nat) (st : St) (line : Str)
    (rest : List Str) (h1 : commentFenceRe (jsTrim line) = false)
    (h2 : st.cb = true) :
    scanFull width (n+1) st (line :: rest) =
      (scanFull width n st rest).map fun p => (line :: p.1, p.2) :=
  scan_cb_step h1 h2

/-- C5 witness: claim5_amended applied to a table fence line arriving
while the comment-block mode is active. -/
theorem claim5_witness :
    scanFull 20 2 ⟨false, false, false, true, false, []⟩
      [str "|===", str "x"] =
      (scanFull 20 1 ⟨false, false, false, true, false, []⟩ [str "x"]).map
        (fun p => (str "|===" :: p.1, p.2)) :=
  claim5_amended 20 1 ⟨false, false, false, true, false, []⟩ (str "|===")
    [str "x"] (by decide) rfl

/-- C6 counterexample: the spec claims termination for every width,
including zero and negative widths.  At width 0 the hard-split loop of
wrapText never shrinks its argument, so the JavaScript code diverges on
any normal paragraph; in the embedding this is the none result.  The
same happens at width minus one. -/
theorem claim6_counterexample :
    reflowTextAdoc (str "hello") 0 = none ∧
    reflowTextAdoc (str "hello") (-1) = none :=
  ⟨by decide, by decide⟩

/-- C6 amended: reflowTextAdoc terminates on every input string for
every width of at least one column (the spec is right for width 1, the
pathological case it names, but wrong for width 0 and negative widths). -/
theorem claim6_amended (input : Str) (width : Int) (hw : 1 ≤ width) :
    (reflowTextAdoc input width).isSome = true := by
  obtain ⟨o, ho⟩ := reflowTextAdoc_some hw input
  rw [ho]
  rfl

/-- C6 witness: claim6_amended at width 1 on a concrete document. -/
theorem claim6_witness : (reflowTextAdoc (str "a b c") 1).isSome = true :=
  claim6_amended (str "a b c") 1 (by decide)

/-- C7 counterexample: the spec claims that inside a literal paragraph
no block mode is toggled by any line up to the next blank line.  After a
literal-paragraph start followed by a fence line, the fence flag of the
scan state is true while the literal flag is still set: the fence branch
precedes the literal branch. -/
theorem claim7_counterexample :
    scanFull 10 2 initSt [str " x", str "----"] =
      some ([str " x", str "----"],
        ⟨true, false, false, false, true, []⟩) := by decide

/-- C7 amended: while a literal paragraph is active, every non-blank
line is emitted character for character (so the text of the run is
preserved), but lines matching higher-precedence branches keep their
side effects: the resulting state still has the literal flag set and an
empty paragraph, while mode flags may have toggled. -/
theorem claim7_amended (width : Int) (n : Nat) (st : St) (line : Str)
    (rest : List Str) (hlit : st.lit = true) (hpara : st.para = [])
    (hws : line.all isWS = false) :
    ∃ st2 : St, st2.lit = true ∧ st2.para = [] ∧
      scanFull width (n+1) st (line :: rest) =
        (scanFull width n st2 rest).map fun p => (line :: p.1, p.2) :=
  scan_lit_step hlit hpara hws

/-- C7 witness: claim7_amended applied to an admonition-looking line
arriving during a literal paragraph. -/
theorem claim7_witness :
    ∃ st2 : St, st2.lit = true ∧ st2.para = [] ∧
      scanFull 10 1 ⟨false, false, false, false, true, []⟩ [str "NOTE: x"] =
        (scanFull 10 0 st2 []).map fun p => (str "NOTE: x" :: p.1, p.2) :=
  claim7_amended 10 0 ⟨false, false, false, false, true, []⟩ (str "NOTE: x")
    [] rfl rfl (by decide)

/-- C8: a prose paragraph (no list or definition-list head) containing a
buffered line that ends in whitespace followed by a plus sign skips
wrapping and is emitted verbatim line for line; in particular the
three-line hard-break document reflowed at width 20 equals itself. -/
theorem claim8_thm :
    (∀ (width : Int) (first : Str) (tl : List Str),
      listRe first = none → defListRe first = none →
      (∃ l ∈ first :: tl, hardBreakRe l = true) →
      reflowParagraph (first :: tl) width = some (first :: tl)) ∧
    reflowTextAdoc (str "Line one +\nline two +\nline three\n") 20 =
      some (str "Line one +\nline two +\nline three\n") := by
  constructor
  · intro width first tl hL hD hBr
    have hB : (first :: tl).any hardBreakRe = true := by
      obtain ⟨l, hmem, hb⟩ := hBr
      exact List.any_eq_true.mpr ⟨l, hmem, hb⟩
    simp only [reflowParagraph, hL, hD]
    rw [if_pos hB]
  · decide

/-- C8 witness: claim8_thm applied to a concrete two-line hard-break
paragraph. -/
theorem claim8_witness :
    reflowParagraph [str "aa +", str "bb"] 20 =
      some [str "aa +", str "bb"] :=
  claim8_thm.1 20 (str "aa +") [str "bb"] (by decide) (by decide)
    ⟨str "aa +", by decide, by decide⟩

/-- C9 counterexample: the spec claims that a newline-terminated input yields an output with exactly one trailing newline and that any other input yields an output with none.  Both directions fail: the two-newline document reflows to itself, which ends with two newlines, and the document consisting of a line, a newline and a space reflows to the line followed by one newline although the input does not end with a newline (its whitespace-only last line becomes an empty output line). -/
theorem claim9_counterexample :
    (reflowTextAdoc (str "\n\n") 20 = some (str "\n\n") ∧
      endsNLb (str "\n\n") = true ∧
      (['\n', '\n'] : Str).isSuffixOf (str "\n\n") = true) ∧
    (reflowTextAdoc (str "a\n ") 30 = some (str "a\n") ∧
      endsNLb (str "a\n ") = false ∧
      endsNLb (str "a\n") = true) :=
  ⟨⟨by decide, by decide, by decide⟩, ⟨by decide, by decide, by decide⟩⟩

/-- C9 amended: three facts survive.  First, a newline-terminated input yields an output ending with at least one newline.  Second, the output is always the emitted lines joined by single newline separators, with one newline appended exactly when the input ends with a newline.  Third, splitting is uniform over the two terminators: a document whose line breaks use any mix of newline and carriage-return newline reflows to the same output as with any other mix, so the output separators are always the bare newline. -/
theorem claim9_amended :
    (∀ (input : Str) (width : Int) (out : Str),
      reflowTextAdoc input width = some out → endsNLb input = true →
      ∃ out2, out = out2 ++ ['\n']) ∧
    (∀ (input : Str) (width : Int) (out : Str),
      reflowTextAdoc input width = some out →
      ∃ outLines, out =
        joinSep ['\n'] outLines ++ if endsNLb input then ['\n'] else []) ∧
    (∀ (ls s1 s2 : List Str) (width : Int), ls ≠ [] →
      (∀ l ∈ ls, '\n' ∉ l ∧ l.getLast? ≠ some '\r') →
      (∀ x ∈ s1, x = ['\n'] ∨ x = ['\r', '\n']) →
      (∀ x ∈ s2, x = ['\n'] ∨ x = ['\r', '\n']) →
      reflowTextAdoc (interLines ls s1) width =
        reflowTextAdoc (interLines ls s2) width) := by
  refine ⟨?_, ?_, ?_⟩
  · intro input width out h he
    have h2 : Option.map
        (fun p : List Str × St =>
          joinSep ['\n'] p.1 ++ (if endsNLb input then ['\n'] else []))
        (scanFull width (splitLines input).length initSt (splitLines input)) =
        some out := h
    rw [Option.map_eq_some'] at h2
    obtain ⟨p, _, hout⟩ := h2
    rw [he] at hout
    exact ⟨joinSep ['\n'] p.1, by rw [← hout]; simp⟩
  · intro input width out h
    have h2 : Option.map
        (fun p : List Str × St =>
          joinSep ['\n'] p.1 ++ (if endsNLb input then ['\n'] else []))
        (scanFull width (splitLines input).length initSt (splitLines input)) =
        some out := h
    rw [Option.map_eq_some'] at h2
    obtain ⟨p, _, hout⟩ := h2
    exact ⟨p.1, hout.symm⟩
  · intro ls s1 s2 width hne hclean h1 h2
    exact reflowTextAdoc_interLines ls s1 s2 width hne hclean h1 h2

/-- C9 witness: claim9_amended applied to a concrete newline-terminated input and to a concrete document written with each terminator style. -/
theorem claim9_witness :
    (∃ out2, str "ab\n" = out2 ++ ['\n']) ∧
    reflowTextAdoc (interLines [str "a", str "b", []] [['\r', '\n'], ['\n']]) 20 =
      reflowTextAdoc (interLines [str "a", str "b", []] [['\n'], ['\n']]) 20 :=
  ⟨claim9_amended.1 (str "ab\n") 20 (str "ab\n") (by decide) (by decide),
   claim9_amended.2.2 [str "a", str "b", []] [['\r', '\n'], ['\n']] [['\n'], ['\n']]
     20 (by decide) (by decide) (by decide) (by decide)⟩

/-- C10: a whitespace-only line reached outside comment blocks and
tables is replaced by an empty output line, the paragraph is flushed and
the literal flag cleared, except that the empty final split fragment
emits nothing; consequently both the empty document and a document
consisting of one whitespace-only line reflow to the empty string. -/
theorem claim10_thm :
    (∀ (width : Int) (n : Nat) (st : St) (line : Str) (rest : List Str),
      st.cb = false → st.table = false → st.para = [] →
      line.all isWS = true → ¬(rest = [] ∧ line = []) →
      scanFull width (n+1) st (line :: rest) =
        (scanFull width n { st with para := [], lit := false } rest).map
          fun p => ([] :: p.1, p.2)) ∧
    reflowTextAdoc (str "") 30 = some (str "") ∧
    reflowTextAdoc (str " \t") 30 = some (str "") := by
  refine ⟨?_, by decide, by decide⟩
  intro width n st line rest h1 h2 h3 h4 h5
  exact scan_blank_step h1 h2 h3 h4 h5

/-- C10 witness: claim10_thm applied to a concrete whitespace-only line
followed by a further line. -/
theorem claim10_witness :
    scanFull 30 2 initSt [str " ", str "b"] =
      (scanFull 30 1 { initSt with para := [], lit := false } [str "b"]).map
        (fun p => ([] :: p.1, p.2)) :=
  claim10_thm.1 30 1 initSt (str " ") [str "b"] rfl rfl rfl (by decide)
    (by decide)

end AdocReflow
